import Mathlib

/-!
# CIOBrain graph component: construction and expansion of the asset graph

A shallow embedding of `src/components/Graph.js` (the class `Graph`) and of the
repository functions of `src/common/Asset.js` it calls.

Representation choices, fixed once for the whole development:

* JavaScript objects are Lean values and an array is the list of the values of its
  elements; where the source mutates an object in place (the decorations of a
  node, the `source` array of a frontier entry) the embedding rewrites the list
  position that holds it. The two agree as long as no object sits at two positions
  of one array. getImplicitConnections pushes an asset once per matching token, so
  arrays that hold one object twice do occur: for them `tagNodes` (the `group` it
  writes) and `addConnectionsAt` (the counter) describe every position on its own,
  while the source writes to the one object. `tagNodesInPlace` is tagNodes on an
  array of object references, `readArray_tagNodesInPlace` relates it to `tagNodes`,
  and statements about nodes that may share an object go through `identityOf`,
  which leaves `connections` and `group` out.
* A numeric id is a natural number (ids are whole numbers in the safe integer
  range), so `parseInt` of a digit string is its exact decimal value.
* `none` in an `Option` stands for the JavaScript value `undefined`
  (for a number also for `NaN`).
* An exception is a value of `JSError`; a function that can throw returns `Except`.
* An asynchronous function is run to completion: every `await` returns its value.
-/

namespace CIOBrain

/-- The exceptions the embedded code can raise: reading or writing a property of
`undefined`, or calling a method a value does not have. -/
inductive JSError where
  | typeError
  deriving DecidableEq

/-- An asset object as the catalogue serves it, together with the three
decorations `tagNodes` writes onto it. The object carries the key `"Asset Type"`,
one id key `"<Asset Type> ID"`, the text attributes (here `"Name"`), any number of
`"<Category> Connections"` keys, and, once tagged, `"id"`, `"connections"`, `"group"`. -/
structure Asset where
  /-- the value of `"Asset Type"` -/
  assetType : String
  /-- the value of `"<Asset Type> ID"`, the only id key the object carries -/
  categoryId : Nat
  /-- the value of `"Name"` -/
  name : String
  /-- the `"<Category> Connections"` keys: category name and text value -/
  connectionFields : List (String × String)
  /-- the value of `"id"` -/
  id : Option String
  /-- the value of `"connections"` -/
  connections : Option Nat
  /-- the value of `"group"` -/
  group : Option Nat
  deriving DecidableEq

/-- The read `asset[category + " ID"]`. -/
def Asset.idField (asset : Asset) (category : String) : Option Nat :=
  if asset.assetType = category then some asset.categoryId else none

/-- The read `asset[type + " Connections"]`. -/
def Asset.connectionsField (asset : Asset) (type : String) : Option String :=
  asset.connectionFields.lookup type

/-- The value of the `source` key of a frontier entry: createLinks writes an
array of ids for an implicit connection and the bare id for a direct one. -/
inductive Source where
  | arr (ids : List (Option String))
  | val (id : Option String)
  deriving DecidableEq

/-- A frontier entry, an element of `state.undisplayed`: `{ source, target }`. -/
structure Entry where
  source : Source
  target : Asset
  deriving DecidableEq

/-- The read `entry[category + " ID"]`: an entry has the keys `source` and `target` only. -/
def Entry.idField (_entry : Entry) (_category : String) : Option Nat := none

/-- A link `{ source, target, value }`. -/
structure Link where
  source : Option String
  target : Option String
  value : Nat
  deriving DecidableEq

/-- The body of a children response: `response.data`, read through `.children`. -/
structure ChildrenResponse where
  children : Option (List Asset)
  deriving DecidableEq

/-- The asset repository of `Asset.js`, one endpoint family per category name.
Each function returns `none` where the JavaScript function returns `undefined`,
which is what it does after a failed request. -/
structure Repo where
  /-- The functions `get<Category>AssetById(id)` -/
  getAssetById : String → Nat → Option Asset
  /-- The functions `get<Category>AssetChildrenById(id)` -/
  getAssetChildrenById : String → Nat → Option ChildrenResponse
  /-- The functions `getAll<Category>Assets()` -/
  getAllCategoryAssets : String → Option (List Asset)

/-- The component state the graph engine reads and writes. -/
structure GraphState where
  selectedCategory : Option String
  selectedAssetKey : Option Nat
  /-- The array `state.data.nodes` -/
  nodes : List Asset
  /-- The array `state.data.links` -/
  links : List Link
  /-- The array `state.undisplayed` -/
  undisplayed : List Entry
  deriving DecidableEq

/-- The state the constructor builds (no selection yet). -/
def GraphState.initial : GraphState :=
  { selectedCategory := none, selectedAssetKey := none, nodes := [], links := [],
    undisplayed := [] }

/-! ## Asset.js -/

/-- The argument of `assets.concat(x)`: an array is spliced in, `undefined` becomes
one element. -/
def concatArg : Option (List Asset) → List (Option Asset)
  | none => [none]
  | some assets => assets.map some

/-- The function `getAllAssets`: the six catalogues concatenated. An absent first
catalogue makes `assets.concat` throw; an absent later one leaves an `undefined` element. -/
def getAllAssets (r : Repo) : Except JSError (List (Option Asset)) :=
  match r.getAllCategoryAssets "Application" with
  | none => .error .typeError
  | some assets =>
    .ok (assets.map some
      ++ concatArg (r.getAllCategoryAssets "Data")
      ++ concatArg (r.getAllCategoryAssets "Infrastructure")
      ++ concatArg (r.getAllCategoryAssets "Talent")
      ++ concatArg (r.getAllCategoryAssets "Projects")
      ++ concatArg (r.getAllCategoryAssets "Business"))

/-! ## Graph.getImplicitConnections -/

/-- The characters `String.prototype.trim` removes (WhiteSpace and LineTerminator). -/
def isJSWhiteSpace (c : Char) : Bool :=
  let n := c.toNat
  n = 0x09 || n = 0x0A || n = 0x0B || n = 0x0C || n = 0x0D || n = 0x20 || n = 0xA0
    || n = 0x1680 || (0x2000 ≤ n && n ≤ 0x200A) || n = 0x2028 || n = 0x2029
    || n = 0x202F || n = 0x205F || n = 0x3000 || n = 0xFEFF

/-- The method `trim`, on the characters of a string. -/
def jsTrim (s : List Char) : List Char :=
  ((s.dropWhile isJSWhiteSpace).reverse.dropWhile isJSWhiteSpace).reverse

/-- The call `item.replace(/\D/g, "")`: every character that is not `0`..`9` is deleted. -/
def stripNonDigits (item : List Char) : List Char :=
  item.filter Char.isDigit

/-- The call `parseInt` on a string of decimal digits: `NaN` (`none`) for the
empty string, the decimal value otherwise. -/
def parseIntDigits (digits : List Char) : Option Nat :=
  if digits = [] then none
  else some (digits.foldl (fun acc c => 10 * acc + (c.toNat - 48)) 0)

/-- The ids a connections field lists:
`field.split(";").map(item => parseInt(item.replace(/\D/g, "")))`. -/
def parseConnections (field : String) : List (Option Nat) :=
  (field.toList.splitOn ';').map (fun item => parseIntDigits (stripNonDigits item))

/-- The callback of `assets.forEach` in getImplicitConnections: the pushes one
asset causes, one per token with `conn == key`. -/
def implicitMatches (asset : Asset) (key : Nat) (type : String) : List Asset :=
  match asset.connectionsField type with
  | none => []
  | some field =>
    if field ≠ "" ∧ (jsTrim field.toList).length ≠ 0 then
      ((parseConnections field).filter (fun conn => decide (conn = some key))).map
        (fun _ => asset)
    else []

/-- The loop `assets.forEach(...)` of getImplicitConnections over what getAllAssets
returned; reading a key of an `undefined` element throws. -/
def scanAssets (key : Nat) (type : String) :
    List (Option Asset) → List Asset → Except JSError (List Asset)
  | [], connections => .ok connections
  | none :: _, _ => .error .typeError
  | some asset :: rest, connections =>
    scanAssets key type rest (connections ++ implicitMatches asset key type)

/-- The method `getImplicitConnections(key, type)`. -/
def getImplicitConnections (r : Repo) (key : Nat) (type : String) :
    Except JSError (List Asset) :=
  match getAllAssets r with
  | .error e => .error e
  | .ok assets => scanAssets key type assets []

/-! ## Graph.equal -/

/-- The body of `equal(asset1, asset2)`, with the second argument given by what
its `"<Category> ID"` reads return (the source also passes a frontier entry there). -/
def equalProps (asset1 : Asset) (asset2 : String → Option Nat) : Bool :=
  if asset1.assetType = "Application" then
    decide (asset1.idField "Application" = asset2 "Application")
  else if asset1.assetType = "Data" then
    decide (asset1.idField "Data" = asset2 "Data")
  else if asset1.assetType = "Infrastructure" then
    decide (asset1.idField "Infrastructure" = asset2 "Infrastructure")
  else if asset1.assetType = "Talent" then
    decide (asset1.idField "Talent" = asset2 "Talent")
  else if asset1.assetType = "Projects" then
    decide (asset1.idField "Projects" = asset2 "Projects")
  else if asset1.assetType = "Business" then
    decide (asset1.idField "Business" = asset2 "Business")
  else false

/-- The method `equal(asset1, asset2)` on two assets. -/
def equal (asset1 asset2 : Asset) : Bool :=
  equalProps asset1 asset2.idField

/-- The call `this.equal(undisp.target, impl)` of createLinks, where `impl` is a
frontier entry. -/
def equalEntry (asset1 : Asset) (impl : Entry) : Bool :=
  equalProps asset1 impl.idField

/-! ## Graph.tagNodes -/

/-- The callback of `nodes.forEach` in tagNodes, for the node at `index`. -/
def tagNode (index : Nat) (node : Asset) : Asset :=
  let node := { node with connections := some 0 }
  let node :=
    if node.assetType = "Application" then
      { node with id := some ("A-" ++ toString node.categoryId) }
    else if node.assetType = "Data" then
      { node with id := some ("D-" ++ toString node.categoryId) }
    else if node.assetType = "Infrastructure" then
      { node with id := some ("I-" ++ toString node.categoryId) }
    else if node.assetType = "Talent" then
      { node with id := some ("T-" ++ toString node.categoryId) }
    else if node.assetType = "Projects" then
      { node with id := some ("P-" ++ toString node.categoryId) }
    else if node.assetType = "Business" then
      { node with id := some ("B-" ++ toString node.categoryId) }
    else node
  { node with group := some (index + 1) }

/-- The loop of tagNodes from position `index` on. -/
def tagNodesFrom : Nat → List Asset → List Asset
  | _, [] => []
  | index, node :: rest => tagNode index node :: tagNodesFrom (index + 1) rest

/-- The method `tagNodes(nodes)` on the values of an array of pairwise distinct
objects (for an array that holds one object at several positions see
`tagNodesInPlace`: the ids and counters it writes are the same, the `group` is not). -/
def tagNodes (nodes : List Asset) : List Asset :=
  tagNodesFrom 0 nodes

/-- The write `f` to the object at address `ref` of the heap. -/
def writeObject (f : Asset → Asset) : List Asset → Nat → List Asset
  | [], _ => []
  | object :: rest, 0 => f object :: rest
  | object :: rest, ref + 1 => object :: writeObject f rest ref

/-- The loop of tagNodes from position `index` on, over an array of object
references: the callback writes to the object the position refers to. -/
def tagNodesInPlaceFrom : Nat → List Nat → List Asset → List Asset
  | _, [], heap => heap
  | index, ref :: rest, heap =>
    tagNodesInPlaceFrom (index + 1) rest (writeObject (tagNode index) heap ref)

/-- The method `tagNodes(nodes)` with the objects kept apart from the array: `heap`
lists the objects, `nodes` is the array, each element the address of an object. The
result is the heap after the loop; the array itself is not changed. -/
def tagNodesInPlace (heap : List Asset) (nodes : List Nat) : List Asset :=
  tagNodesInPlaceFrom 0 nodes heap

/-- The values an array of object references holds, position by position. -/
def readArray (heap : List Asset) (nodes : List Nat) : List (Option Asset) :=
  nodes.map (fun ref => heap.get? ref)

/-! ## Graph.createLinks -/

/-- The call `nodes.find(node => p(node))`, as the position of the node it returns. -/
def findNode (p : Asset → Bool) : List Asset → Option Nat
  | [] => none
  | node :: rest => if p node then some 0 else (findNode p rest).map (· + 1)

/-- The call `this.state.undisplayed.find(undisp => this.equal(undisp.target, impl))`,
as the position of the entry it returns. -/
def findCached (impl : Entry) : List Entry → Option Nat
  | [] => none
  | undisp :: rest =>
    if equalEntry undisp.target impl then some 0 else (findCached impl rest).map (· + 1)

/-- The call `source.push(id)`: defined on an array only. -/
def Source.push : Source → Option String → Except JSError Source
  | .arr ids, id => .ok (.arr (ids ++ [id]))
  | .val _, _ => .error .typeError

/-- The statement `alreadyCached["source"].push(existing["id"])` for the cached
entry at position `index`. -/
def pushSourceAt : List Entry → Nat → Option String → Except JSError (List Entry)
  | [], _, _ => .ok []
  | entry :: rest, 0, id =>
    match entry.source.push id with
    | .error e => .error e
    | .ok source => .ok ({ entry with source := source } :: rest)
  | entry :: rest, index + 1, id =>
    match pushSourceAt rest index id with
    | .error e => .error e
    | .ok rest' => .ok (entry :: rest')

/-- The loop `array.forEach((impl, index, array) => ...)` that folds new entries
into the cached frontier: `remaining` positions are still to visit, starting at
`index`; a position the array no longer has is skipped; an entry found in the
cache has the id pushed onto the cached entry and is spliced out of `array`.
Returns the cache and the array. -/
def dedupe (id : Option String) :
    Nat → Nat → List Entry → List Entry → Except JSError (List Entry × List Entry)
  | 0, _, cached, array => .ok (cached, array)
  | remaining + 1, index, cached, array =>
    match array.get? index with
    | none => dedupe id remaining (index + 1) cached array
    | some impl =>
      match findCached impl cached with
      | none => dedupe id remaining (index + 1) cached array
      | some position =>
        match pushSourceAt cached position id with
        | .error e => .error e
        | .ok cached' => dedupe id remaining (index + 1) cached' (array.eraseIdx index)

/-- The value `some id` when `existing[category + " ID"]` is truthy. -/
def truthyId (existing : Asset) (category : String) : Option Nat :=
  match existing.idField category with
  | some id => if id = 0 then none else some id
  | none => none

/-- The expression `(await asset.get<Category>AssetChildrenById(id)).children`. -/
def fetchChildren (r : Repo) (category : String) (id : Nat) :
    Except JSError (Option (List Asset)) :=
  match r.getAssetChildrenById category id with
  | none => .error .typeError
  | some response => .ok response.children

/-- The `if`/`else if` chain that assigns `direct`: the first truthy id key
decides the endpoint; with none truthy `direct` keeps the value it had. -/
def directOf (r : Repo) (existing : Asset) (direct : Option (List Asset)) :
    Except JSError (Option (List Asset)) :=
  match truthyId existing "Application" with
  | some id => fetchChildren r "Application" id
  | none =>
  match truthyId existing "Data" with
  | some id => fetchChildren r "Data" id
  | none =>
  match truthyId existing "Infrastructure" with
  | some id => fetchChildren r "Infrastructure" id
  | none =>
  match truthyId existing "Talent" with
  | some id => fetchChildren r "Talent" id
  | none =>
  match truthyId existing "Projects" with
  | some id => fetchChildren r "Projects" id
  | none =>
  match truthyId existing "Business" with
  | some id => fetchChildren r "Business" id
  | none => .ok direct

/-- The array `implUndisplayed` before it is folded into the cache. -/
def implicitEntries (nodes : List Asset) (existing : Asset) (implicit : List Asset) :
    List Entry :=
  (implicit.filter (fun impl => (findNode (fun node => equal node impl) nodes).isNone)).map
    (fun conn => { source := .arr [existing.id], target := conn })

/-- The array `inGraph`: the nodes found for the direct connections, by position. -/
def inGraphOf (nodes : List Asset) (direct : List Asset) : List Nat :=
  direct.filterMap (fun connected => findNode (fun node => equal node connected) nodes)

/-- The array `directUndisplayed` before it is folded into the cache. -/
def directEntries (nodes : List Asset) (existing : Asset) (direct : List Asset) :
    List Entry :=
  (direct.filter
      (fun connected => (findNode (fun node => equal node connected) nodes).isNone)).map
    (fun conn => { source := .val existing.id, target := conn })

/-- The statement `node["connections"] += k`. -/
def addConnections (node : Asset) (k : Nat) : Asset :=
  { node with connections := node.connections.map (· + k) }

/-- The statement `node["connections"] += k` for the node at position `index` of
`nodes` (the counter of that position; an object held at another position too is
not followed there). -/
def addConnectionsAt : List Asset → Nat → Nat → List Asset
  | [], _, _ => []
  | node :: rest, 0, k => addConnections node k :: rest
  | node :: rest, index + 1, k => node :: addConnectionsAt rest index k

/-- The read `nodes[index]["id"]`. -/
def idAt (nodes : List Asset) (index : Nat) : Option String :=
  match nodes.get? index with
  | some node => node.id
  | none => none

/-- The variables of createLinks that live across iterations of its loop. -/
structure LoopState where
  /-- The variable `direct`, declared outside the loop -/
  direct : Option (List Asset)
  /-- The variable `inGraph`, declared outside the loop: positions in `nodes` -/
  inGraph : List Nat
  /-- the entries of `this.state.undisplayed` -/
  cached : List Entry
  /-- the entries concatenated onto the local `undisplayed` so far -/
  added : List Entry
  links : List Link
  /-- the argument `nodes`, whose objects the loop mutates -/
  nodes : List Asset
  deriving DecidableEq

/-- One iteration of `for (let existing of nodes)`, for the node at `index`. -/
def createLinksStep (r : Repo) (index : Nat) (existing : Asset) (s : LoopState) :
    Except JSError LoopState :=
  match directOf r existing s.direct with
  | .error e => .error e
  | .ok direct =>
  -- `existing[existing["Asset Type"] + " ID"]` is the asset's own id key
  match getImplicitConnections r existing.categoryId existing.assetType with
  | .error e => .error e
  | .ok implicit =>
  let implUndisplayed := implicitEntries s.nodes existing implicit
  match dedupe existing.id implUndisplayed.length 0 s.cached implUndisplayed with
  | .error e => .error e
  | .ok (cached, implUndisplayed) =>
  let added := s.added ++ implUndisplayed
  let afterDirect : Except JSError (List Nat × List Entry × List Entry) :=
    match direct with
    | none => .ok (s.inGraph, cached, added)
    | some direct =>
      let directUndisplayed := directEntries s.nodes existing direct
      match dedupe existing.id directUndisplayed.length 0 cached directUndisplayed with
      | .error e => .error e
      | .ok (cached, directUndisplayed) =>
        .ok (inGraphOf s.nodes direct, cached, added ++ directUndisplayed)
  match afterDirect with
  | .error e => .error e
  | .ok (inGraph, cached, added) =>
  let nodes := inGraph.foldl (fun nodes position => addConnectionsAt nodes position 1) s.nodes
  let nodes := addConnectionsAt nodes index inGraph.length
  .ok { direct := direct, inGraph := inGraph, cached := cached, added := added,
        links := s.links ++ inGraph.map (fun position =>
          { source := existing.id, target := idAt nodes position, value := 1 }),
        nodes := nodes }

/-- The loop `for (let existing of nodes)` over the nodes still to visit. -/
def createLinksLoop (r : Repo) : Nat → List Asset → LoopState → Except JSError LoopState
  | _, [], s => .ok s
  | index, existing :: rest, s =>
    match createLinksStep r index existing s with
    | .error e => .error e
    | .ok s' => createLinksLoop r (index + 1) rest s'

/-- The method `createLinks(nodes)`: returns the links, the nodes as the loop left
them, and the state after `setState({ undisplayed })`. -/
def createLinks (r : Repo) (st : GraphState) (nodes : List Asset) :
    Except JSError (List Link × List Asset × GraphState) :=
  match createLinksLoop r 0 nodes
      { direct := none, inGraph := [], cached := st.undisplayed, added := [], links := [],
        nodes := nodes } with
  | .error e => .error e
  | .ok s => .ok (s.links, s.nodes, { st with undisplayed := s.cached ++ s.added })

/-! ## Graph.initNodes, Graph.initData, Graph.componentWillReceiveProps -/

/-- The six category names the `switch` statements of the component list. -/
def isCategory (category : String) : Prop :=
  category = "Application" ∨ category = "Data" ∨ category = "Infrastructure"
    ∨ category = "Talent" ∨ category = "Projects" ∨ category = "Business"

instance (category : String) : Decidable (isCategory category) := by
  unfold isCategory; infer_instance

/-- The loop of tagNodes over an array that may hold `undefined`: writing a key of
an `undefined` element throws. -/
def definedNodes : List (Option Asset) → Except JSError (List Asset)
  | [] => .ok []
  | none :: _ => .error .typeError
  | some node :: rest =>
    match definedNodes rest with
    | .error e => .error e
    | .ok nodes => .ok (node :: nodes)

/-- The method `initNodes()`, with the two state reads `this.state.selectedCategory`
and `this.state.selectedAssetKey` as arguments: the selected asset, its direct
children and its implicit connections, tagged. -/
def initNodes (r : Repo) (selectedCategory : String) (selectedAssetKey : Nat) :
    Except JSError (List Asset) :=
  let fetched : Except JSError (List (Option Asset)) :=
    if isCategory selectedCategory then
      let origin := r.getAssetById selectedCategory selectedAssetKey
      match r.getAssetChildrenById selectedCategory selectedAssetKey with
      | none => .error .typeError
      | some response => .ok (origin :: concatArg response.children)
    else .ok []
  match fetched with
  | .error e => .error e
  | .ok nodes =>
    match getImplicitConnections r selectedAssetKey selectedCategory with
    | .error e => .error e
    | .ok implicit =>
      match definedNodes (nodes ++ implicit.map some) with
      | .error e => .error e
      | .ok nodes => .ok (tagNodes nodes)

/-- The method `initData()`, the two state reads of initNodes as arguments. -/
def initData (r : Repo) (st : GraphState) (selectedCategory : String)
    (selectedAssetKey : Nat) : Except JSError GraphState :=
  match initNodes r selectedCategory selectedAssetKey with
  | .error e => .error e
  | .ok nodes =>
    match createLinks r st nodes with
    | .error e => .error e
    | .ok (links, nodes, st') => .ok { st' with nodes := nodes, links := links }

/-- The method `componentWillReceiveProps(nextProps)`: a changed selection is
stored, and the data is rebuilt when category and key are both truthy. -/
def componentWillReceiveProps (r : Repo) (st : GraphState) (nextCategory : Option String)
    (nextKey : Option Nat) : Except JSError GraphState :=
  if st.selectedCategory ≠ nextCategory ∨ st.selectedAssetKey ≠ nextKey then
    let st := { st with selectedCategory := nextCategory, selectedAssetKey := nextKey }
    match nextCategory, nextKey with
    | some category, some key =>
      if category ≠ "" ∧ key ≠ 0 then initData r st category key else .ok st
    | _, _ => .ok st
  else .ok st

/-! ## Graph.expandAsset -/

/-- The conversion of a value to a string, as `String.prototype.includes` applies
it to its argument. -/
def jsToString : Option String → String
  | some s => s
  | none => "undefined"

/-- The method `includes` of a string: `needle` occurs in the text as a substring. -/
def includesChars (needle : List Char) : List Char → Bool
  | [] => needle.isPrefixOf []
  | c :: rest => needle.isPrefixOf (c :: rest) || includesChars needle rest

/-- The call `conn["source"].includes(id)`: membership for an array, substring
search for a string, an exception for `undefined`. -/
def Source.includes : Source → Option String → Except JSError Bool
  | .arr ids, id => .ok (decide (id ∈ ids))
  | .val (some s), id => .ok (includesChars (jsToString id).toList s.toList)
  | .val none, _ => .error .typeError

/-- The call `this.state.undisplayed.filter(conn => conn["source"].includes(node["id"]))`. -/
def selectSources (id : Option String) : List Entry → Except JSError (List Entry)
  | [] => .ok []
  | conn :: rest =>
    match conn.source.includes id with
    | .error e => .error e
    | .ok hit =>
      match selectSources id rest with
      | .error e => .error e
      | .ok selected => .ok (if hit then conn :: selected else selected)

/-- The guard of expandAsset: the node is the selected asset. -/
def isSelected (st : GraphState) (node : Asset) : Bool :=
  match st.selectedCategory, st.selectedAssetKey with
  | some category, some key =>
    decide (node.assetType = category) && decide (node.idField category = some key)
  | _, _ => false

/-- The loop `nodes.forEach(node => (node["connections"] = 0))`. -/
def resetConnections (nodes : List Asset) : List Asset :=
  nodes.map (fun node => { node with connections := some 0 })

/-- The assets expandAsset moves onto the graph: `toMove` after `tagNodes(toMove)`
(two selected entries may hold one target object; see `tagNodes` for the `group`). -/
def toMoveOf (selected : List Entry) : List Asset :=
  tagNodes (selected.map (fun conn => conn.target))

/-- The method `expandAsset(node)`, up to the redraw. -/
def expandAsset (r : Repo) (st : GraphState) (node : Asset) : Except JSError GraphState :=
  if isSelected st node then .ok st
  else
    match selectSources node.id st.undisplayed with
    | .error e => .error e
    | .ok selected =>
      let toMove := toMoveOf selected
      let undisplayed := st.undisplayed.filter (fun conn =>
        (findNode (fun moving => equal conn.target moving) toMove).isNone)
      let nodes := resetConnections (st.nodes ++ toMove)
      match createLinks r { st with undisplayed := undisplayed } nodes with
      | .error e => .error e
      | .ok (links, nodes, st') => .ok { st' with nodes := nodes, links := links }

/-! ## Quantities the statements below speak of -/

/-- The number of links that touch the node with the given id: the links whose
source is the id plus the links whose target is the id. -/
def linksTouching (links : List Link) (id : Option String) : Nat :=
  links.countP (fun link => decide (link.source = id))
    + links.countP (fun link => decide (link.target = id))

/-- The asset data and the derived id of a node: the node without its `connections`
counter and its `group` index. -/
def identityOf (node : Asset) : Asset :=
  { node with connections := none, group := none }

/-- The letter that starts the derived id of a category: A, D, I, T, P, B for
Application, Data, Infrastructure, Talent, Projects, Business. -/
def categoryLetter (category : String) : Option String :=
  if category = "Application" then some "A"
  else if category = "Data" then some "D"
  else if category = "Infrastructure" then some "I"
  else if category = "Talent" then some "T"
  else if category = "Projects" then some "P"
  else if category = "Business" then some "B"
  else none

/-- The links one node is to contribute: for each direct child the children lookup
for the node's own category and id returns, in order, that equals a displayed node,
one link from the node to the first such displayed node; none when the lookup
returns no children list. -/
def ownLinks (r : Repo) (nodes : List Asset) (n : Asset) : List Link :=
  match r.getAssetChildrenById n.assetType n.categoryId with
  | some { children := some children } =>
    children.filterMap (fun c =>
      (nodes.find? (fun d => equal d c)).map
        (fun d => { source := n.id, target := d.id, value := 1 }))
  | _ => []

/-- The links a node list is to produce: the links of each node, in iteration order. -/
def expectedLinks (r : Repo) (nodes : List Asset) : List Asset → List Link
  | [] => []
  | n :: rest => ownLinks r nodes n ++ expectedLinks r nodes rest

/-! ## Concrete catalogues used as witnesses and failing inputs -/

/-- An Application asset as the catalogue serves it (not tagged yet). -/
def app (id : Nat) (connectionFields : List (String × String)) : Asset :=
  { assetType := "Application", categoryId := id, name := "",
    connectionFields := connectionFields, id := none, connections := none, group := none }

/-- A catalogue of Application assets; `children id` lists the ids of the direct
children of an asset, `none` where the children request fails. Every other
category is empty. -/
def repoOf (assets : List Asset) (children : Nat → Option (List Nat)) : Repo :=
  { getAssetById := fun category id =>
      assets.find? (fun a => decide (a.assetType = category ∧ a.categoryId = id))
    getAssetChildrenById := fun category id =>
      if category = "Application" then
        match children id with
        | none => none
        | some ids => some { children := some (assets.filter (fun a => decide (a.categoryId ∈ ids))) }
      else some { children := some [] }
    getAllCategoryAssets := fun category =>
      if category = "Application" then some assets else some [] }

/-- Applications 1 and 2 both have application 3 as their only direct child. -/
def sharedChildRepo : Repo :=
  repoOf [app 1 [], app 2 [], app 3 []]
    (fun id => if id = 1 then some [3] else if id = 2 then some [3] else some [])

/-- Application 1 has the direct children 2 and 3, which have none. -/
def fanRepo : Repo :=
  repoOf [app 1 [], app 2 [], app 3 []] (fun id => if id = 1 then some [2, 3] else some [])

/-- The node list `[A, B, C]` of `fanRepo`, tagged. -/
def fanNodes : List Asset :=
  tagNodes [app 1 [], app 2 [], app 3 []]

/-- One application whose `"Application Connections"` field is `"12;7;abc9"`. -/
def lenientRepo : Repo :=
  repoOf [app 1 [("Application", "12;7;abc9")]] (fun _ => some [])

/-- Application 5 has the direct children 6 and 7; application 6 lists 5 in its
`"Application Connections"` field. -/
def seedRepo : Repo :=
  repoOf [app 5 [], app 6 [("Application", "5")], app 7 []]
    (fun id => if id = 5 then some [6, 7] else some [])

/-- Application 2 has the direct children 1 and 12; application 12 has the direct
child 30. -/
def substringRepo : Repo :=
  repoOf [app 1 [], app 2 [], app 12 [], app 30 []]
    (fun id => if id = 2 then some [1, 12] else if id = 12 then some [30] else some [])

/-- The state after application 2 of `substringRepo` has been selected: nodes 2, 1, 12
are displayed and the frontier holds application 30, found from node `A-12`. -/
def substringState : GraphState :=
  { selectedCategory := some "Application", selectedAssetKey := some 2,
    nodes :=
      [{ tagNode 0 (app 2 []) with connections := some 2 },
       { tagNode 1 (app 1 []) with connections := some 1 },
       { tagNode 2 (app 12 []) with connections := some 1 }],
    links :=
      [{ source := some "A-2", target := some "A-1", value := 1 },
       { source := some "A-2", target := some "A-12", value := 1 }],
    undisplayed := [{ source := .val (some "A-12"), target := app 30 [] }] }

/-- Application 1 has the direct child 2, which has the direct child 3;
application 9 has no connection at all. -/
def chainRepo : Repo :=
  repoOf [app 1 [], app 2 [], app 3 [], app 9 []]
    (fun id => if id = 1 then some [2] else if id = 2 then some [3] else some [])

/-- The state after application 1 of `chainRepo` has been selected. -/
def chainState : GraphState :=
  { selectedCategory := some "Application", selectedAssetKey := some 1,
    nodes :=
      [{ tagNode 0 (app 1 []) with connections := some 1 },
       { tagNode 1 (app 2 []) with connections := some 1 }],
    links := [{ source := some "A-1", target := some "A-2", value := 1 }],
    undisplayed := [{ source := .val (some "A-2"), target := app 3 [] }] }

/-- The children request for application 1 fails; application 2 has no children. -/
def failingRepo : Repo :=
  repoOf [app 1 [], app 2 []] (fun id => if id = 1 then none else some [])

/-- A state in which application 5 is selected and the frontier holds an entry
whose sources include the id of node 5. -/
def seedSelectedState : GraphState :=
  { selectedCategory := some "Application", selectedAssetKey := some 5,
    nodes := [{ tagNode 0 (app 5 []) with connections := some 0 }],
    links := [],
    undisplayed := [{ source := .arr [some "A-5"], target := app 8 [] }] }

/-- Application 1 has the direct child 2; the children response for application 2
carries no `children` key. -/
def staleRepo : Repo :=
  { getAssetById := fun category id =>
      [app 1 [], app 2 []].find? (fun a => decide (a.assetType = category ∧ a.categoryId = id))
    getAssetChildrenById := fun category id =>
      if category = "Application" ∧ id = 1 then some { children := some [app 2 []] }
      else some { children := none }
    getAllCategoryAssets := fun category =>
      if category = "Application" then some [app 1 [], app 2 []] else some [] }

/-- Application 1 has the direct child 2, which has the direct child 3, which has
the direct child 4. -/
def deepRepo : Repo :=
  repoOf [app 1 [], app 2 [], app 3 [], app 4 []]
    (fun id => if id = 1 then some [2] else if id = 2 then some [3]
      else if id = 3 then some [4] else some [])

/-- The state after application 1 of `deepRepo` has been selected. -/
def deepState : GraphState :=
  { selectedCategory := some "Application", selectedAssetKey := some 1,
    nodes :=
      [{ tagNode 0 (app 1 []) with connections := some 1 },
       { tagNode 1 (app 2 []) with connections := some 1 }],
    links := [{ source := some "A-1", target := some "A-2", value := 1 }],
    undisplayed := [{ source := .val (some "A-2"), target := app 3 [] }] }

/-- Application 5 has the direct children 6 and 7; application 6 lists 5 twice in its
`"Application Connections"` field. -/
def doubleListRepo : Repo :=
  repoOf [app 5 [], app 6 [("Application", "5;5")], app 7 []]
    (fun id => if id = 5 then some [6, 7] else some [])

/-! ## Auxiliary definitions for the proofs about createLinks -/

/-- The loop state one iteration of createLinks produces from the fetched `direct`
and `implicit`, given that no lookup in the cached frontier finds an entry
(`createLinksStep_eq` proves the iteration computes exactly this). -/
def stepResult (index : Nat) (existing : Asset) (s : LoopState)
    (direct : Option (List Asset)) (implicit : List Asset) : LoopState :=
  let inGraph :=
    match direct with
    | none => s.inGraph
    | some direct => inGraphOf s.nodes direct
  let nodes :=
    addConnectionsAt (inGraph.foldl (fun nodes position => addConnectionsAt nodes position 1)
      s.nodes) index inGraph.length
  { direct := direct, inGraph := inGraph, cached := s.cached,
    added := s.added ++ implicitEntries s.nodes existing implicit ++
      (match direct with
       | none => []
       | some direct => directEntries s.nodes existing direct),
    links := s.links ++ inGraph.map (fun position =>
      { source := existing.id, target := idAt nodes position, value := 1 }),
    nodes := nodes }

/-- Two loop states agree on everything but the frontier. -/
def LoopState.sameGraph (s t : LoopState) : Prop :=
  s.direct = t.direct ∧ s.inGraph = t.inGraph ∧ s.links = t.links ∧ s.nodes = t.nodes

/-- Two loop states agree on the links made so far and on the nodes up to their
counters. -/
def LoopState.sameLinks (s t : LoopState) : Prop :=
  s.direct = t.direct ∧ s.inGraph = t.inGraph ∧ s.links = t.links ∧
    resetConnections s.nodes = resetConnections t.nodes

/-- The invariant of the loop of createLinks behind the counter property: the nodes
are the given ones up to their counters, every counter is the number of links made
so far that touch its node, and `inGraph` holds positions of the node list. -/
def CountInv (N : List Asset) (s : LoopState) : Prop :=
  resetConnections s.nodes = resetConnections N ∧
  (∀ (j : Nat) (n : Asset), N[j]? = some n →
    ∃ m, s.nodes[j]? = some m ∧ m.connections = some (linksTouching s.links n.id)) ∧
  (∀ p ∈ s.inGraph, p < N.length)

/-- The invariant of the loop of createLinks when the nodes are a seed, its direct
children `cs` and duplicates of them (`X`, before tagging), and every connection
found is displayed: the frontier stays empty, every link goes from the seed to a
child, and once the first node (the seed) is done every such link is present. -/
def SeedInv (X : List Asset) (seed : Asset) (cs : List Asset) (index : Nat)
    (s : LoopState) : Prop :=
  resetConnections s.nodes = resetConnections (tagNodes X) ∧ s.cached = [] ∧ s.added = [] ∧
  (∀ l ∈ s.links, ∃ c ∈ cs,
    l = { source := (tagNode 0 seed).id, target := (tagNode 0 c).id, value := 1 }) ∧
  (0 < index → ∀ c ∈ cs,
    ({ source := (tagNode 0 seed).id, target := (tagNode 0 c).id, value := 1 } : Link)
      ∈ s.links)

/-! ## Identity of assets -/

theorem equal_eq_true_iff (a b : Asset) (ha : isCategory a.assetType) :
    equal a b = true ↔ a.assetType = b.assetType ∧ a.categoryId = b.categoryId := by
  rcases ha with h | h | h | h | h | h <;>
    by_cases hb : a.assetType = b.assetType <;>
    simp_all [equal, equalProps, Asset.idField] <;>
    exact fun h' => absurd h'.symm hb

/-- C2. For an asset `a` of one of the six categories and any asset `b`,
`equal a b` holds exactly when `b` has the same category and the same category id
as `a`; no other field is consulted. -/
theorem equal_iff_same_category_and_id (a b : Asset) (ha : isCategory a.assetType) :
    equal a b = true ↔ a.assetType = b.assetType ∧ a.categoryId = b.categoryId :=
  equal_eq_true_iff a b ha

/-- C2, at a concrete pair: two Application assets with id 5 that differ in every
other field are equal. -/
theorem equal_iff_same_category_and_id_witness :
    isCategory (app 5 []).assetType ∧
      (equal (app 5 []) { tagNode 3 (app 5 [("Data", "1;2")]) with name := "other" } = true ↔
        (app 5 []).assetType
            = ({ tagNode 3 (app 5 [("Data", "1;2")]) with name := "other" } : Asset).assetType ∧
          (app 5 []).categoryId
            = ({ tagNode 3 (app 5 [("Data", "1;2")]) with name := "other" } : Asset).categoryId) :=
  ⟨by decide, equal_iff_same_category_and_id _ _ (by decide)⟩

/-! ## Expanding the selected asset -/

/-- C5. When the node's category is the selected category and its category id is
the selected asset key, `expandAsset` returns the state it was given: nodes, links,
counters and frontier are untouched. -/
theorem expandAsset_selected_noop (r : Repo) (st : GraphState) (node : Asset)
    (hc : st.selectedCategory = some node.assetType)
    (hk : st.selectedAssetKey = some node.categoryId) :
    expandAsset r st node = .ok st := by
  simp [expandAsset, isSelected, hc, hk, Asset.idField]

/-- C5, at a state whose frontier holds an entry sourced from the selected node. -/
theorem expandAsset_selected_noop_witness :
    seedSelectedState.selectedCategory = some (tagNode 0 (app 5 [])).assetType ∧
      seedSelectedState.selectedAssetKey = some (tagNode 0 (app 5 [])).categoryId ∧
      (∃ entry ∈ seedSelectedState.undisplayed,
        entry.source.includes (tagNode 0 (app 5 [])).id = .ok true) ∧
      expandAsset seedRepo seedSelectedState (tagNode 0 (app 5 [])) = .ok seedSelectedState :=
  ⟨rfl, rfl, ⟨_, List.mem_singleton.mpr rfl, rfl⟩,
    expandAsset_selected_noop seedRepo seedSelectedState (tagNode 0 (app 5 [])) rfl rfl⟩

/-! ## Implicit connections -/


theorem isDigit_not_whiteSpace (c : Char) (h : c.isDigit = true) : isJSWhiteSpace c = false := by
  simp only [Char.isDigit, Bool.and_eq_true, decide_eq_true_eq] at h
  obtain ⟨h1, h2⟩ := h
  have h1' : 48 ≤ c.toNat := by
    have := UInt32.le_def.mp h1
    simpa [Char.toNat] using this
  have h2' : c.toNat ≤ 57 := by
    have := UInt32.le_def.mp h2
    simpa [Char.toNat] using this
  simp only [isJSWhiteSpace]
  simp
  omega

theorem jsTrim_ne_nil (s : List Char) (c : Char) (hc : c ∈ s) (hw : isJSWhiteSpace c = false) :
    jsTrim s ≠ [] := by
  intro h
  simp only [jsTrim, List.reverse_eq_nil_iff, List.dropWhile_eq_nil_iff] at h
  have hne : s.dropWhile isJSWhiteSpace ≠ [] := by
    intro h'
    rw [List.dropWhile_eq_nil_iff] at h'
    have := h' c hc
    simp [hw] at this
  have h1 := List.head_dropWhile_not isJSWhiteSpace s hne
  have h2 := h _ (List.mem_reverse.mpr (List.head_mem hne))
  simp [h1] at h2

theorem mem_intersperse_of_mem {α : Type} (sep x : α) :
    ∀ l : List α, x ∈ l → x ∈ l.intersperse sep
  | [], h => by simp at h
  | [y], h => by simpa [List.intersperse] using h
  | y :: z :: zs, h => by
    simp only [List.intersperse, List.mem_cons]
    rcases List.mem_cons.mp h with h | h
    · exact Or.inl h
    · exact Or.inr (Or.inr (mem_intersperse_of_mem sep x (z :: zs) h))

theorem mem_of_mem_splitOn (s item : List Char) (sep c : Char) (hi : item ∈ s.splitOn sep) (hc : c ∈ item) :
    c ∈ s := by
  have h : [sep].intercalate (s.splitOn sep) = s := List.intercalate_splitOn s sep
  rw [← h]
  simp only [List.intercalate, List.mem_flatten]
  exact ⟨item, mem_intersperse_of_mem _ _ _ hi, hc⟩

theorem parseIntDigits_eq_some (digits : List Char) (key : Nat) :
    parseIntDigits digits = some key ↔
      digits ≠ [] ∧ Nat.ofDigits 10 (digits.reverse.map (fun c => c.toNat - 48)) = key := by
  have hval : ∀ l : List Char, l.foldl (fun acc c => 10 * acc + (c.toNat - 48)) 0
      = Nat.ofDigits 10 (l.reverse.map (fun c => c.toNat - 48)) := by
    intro l
    induction l using List.reverseRecOn with
    | nil => simp
    | append_singleton l c ih =>
      simp [List.foldl_append, Nat.ofDigits_cons, ih]; ring
  unfold parseIntDigits
  by_cases h : digits = []
  · simp [h]
  · simp [h, hval]

theorem mem_implicitMatches (asset a : Asset) (key : Nat) (type : String) :
    a ∈ implicitMatches asset key type ↔
      a = asset ∧ ∃ field, asset.connectionsField type = some field ∧ field ≠ "" ∧
        ∃ item ∈ field.toList.splitOn ';', parseIntDigits (stripNonDigits item) = some key := by
  unfold implicitMatches
  cases hf : asset.connectionsField type with
  | none => simp
  | some field =>
    simp only [Option.some.injEq, exists_eq_left']
    by_cases hcond : field ≠ "" ∧ (jsTrim field.toList).length ≠ 0
    · rw [if_pos hcond]
      simp only [List.mem_map, List.mem_filter, decide_eq_true_eq, parseConnections]
      constructor
      · rintro ⟨conn, ⟨⟨item, hi, rfl⟩, hk⟩, rfl⟩
        exact ⟨rfl, hcond.1, item, hi, hk⟩
      · rintro ⟨rfl, _, item, hi, hk⟩
        exact ⟨_, ⟨⟨item, hi, rfl⟩, hk⟩, rfl⟩
    · rw [if_neg hcond]
      simp only [List.not_mem_nil, false_iff, not_and, not_exists]
      rintro rfl hne item hi hk
      apply hcond
      refine ⟨hne, ?_⟩
      have hd : stripNonDigits item ≠ [] := by
        intro h; simp [h, parseIntDigits] at hk
      obtain ⟨c, hc⟩ := List.exists_mem_of_ne_nil _ hd
      simp only [stripNonDigits, List.mem_filter] at hc
      have := jsTrim_ne_nil field.toList c (mem_of_mem_splitOn _ _ _ _ hi hc.1)
        (isDigit_not_whiteSpace c hc.2)
      simpa [List.length_eq_zero] using this

theorem scanAssets_map_some (key : Nat) (type : String) (assets : List Asset) :
    ∀ connections : List Asset, ∃ result,
      scanAssets key type (assets.map some) connections = .ok result ∧
      ∀ a, a ∈ result ↔ a ∈ connections ∨ ∃ x ∈ assets, a ∈ implicitMatches x key type := by
  induction assets with
  | nil => intro connections; exact ⟨connections, rfl, by simp⟩
  | cons x rest ih =>
    intro connections
    obtain ⟨result, hres, hmem⟩ := ih (connections ++ implicitMatches x key type)
    refine ⟨result, by simpa [scanAssets] using hres, ?_⟩
    intro a
    rw [hmem a]
    simp only [List.mem_append, List.mem_cons, exists_eq_or_imp, or_assoc]

/-- C6. When the catalogue is `assets`, an asset is in the result of
`getImplicitConnections key type` exactly when it is in the catalogue, its
`"<type> Connections"` field is a non-empty text, and one of the tokens between
semicolons, with every non-digit character deleted, is a non-empty digit string
whose decimal value is `key`. -/
theorem mem_getImplicitConnections_iff (r : Repo) (assets : List Asset) (key : Nat)
    (type : String) (h : getAllAssets r = .ok (assets.map some)) :
    ∃ result, getImplicitConnections r key type = .ok result ∧
      ∀ a, a ∈ result ↔
        a ∈ assets ∧ ∃ field, a.connectionsField type = some field ∧ field ≠ "" ∧
          ∃ item ∈ field.toList.splitOn ';', stripNonDigits item ≠ [] ∧
            Nat.ofDigits 10 ((stripNonDigits item).reverse.map (fun c => c.toNat - 48))
              = key := by
  obtain ⟨result, hres, hmem⟩ := scanAssets_map_some key type assets []
  refine ⟨result, by simp [getImplicitConnections, h, hres], ?_⟩
  intro a
  rw [hmem a]
  simp only [List.not_mem_nil, false_or, mem_implicitMatches, parseIntDigits_eq_some]
  constructor
  · rintro ⟨x, hx, rfl, hrest⟩
    exact ⟨hx, hrest⟩
  · rintro ⟨hx, hrest⟩
    exact ⟨a, hx, rfl, hrest⟩

/-- C6, at the field `"12;7;abc9"`: the asset is returned for key 12 (first token)
and for key 9 (the token `abc9`), and not for key 1. -/
theorem mem_getImplicitConnections_iff_witness :
    getAllAssets lenientRepo = .ok ([app 1 [("Application", "12;7;abc9")]].map some) ∧
      (∃ result, getImplicitConnections lenientRepo 9 "Application" = .ok result ∧
        ∀ a, a ∈ result ↔
          a ∈ [app 1 [("Application", "12;7;abc9")]] ∧
            ∃ field, a.connectionsField "Application" = some field ∧ field ≠ "" ∧
              ∃ item ∈ field.toList.splitOn ';', stripNonDigits item ≠ [] ∧
                Nat.ofDigits 10 ((stripNonDigits item).reverse.map (fun c => c.toNat - 48))
                  = 9) ∧
      getImplicitConnections lenientRepo 12 "Application"
        = .ok [app 1 [("Application", "12;7;abc9")]] ∧
      getImplicitConnections lenientRepo 9 "Application"
        = .ok [app 1 [("Application", "12;7;abc9")]] ∧
      getImplicitConnections lenientRepo 1 "Application" = .ok [] :=
  ⟨rfl, mem_getImplicitConnections_iff lenientRepo _ 9 "Application" rfl, rfl, rfl, rfl⟩

/-! ## The derived id determines category and category id -/


theorem digitChar_value (d : Nat) (h : d < 10) : (Nat.digitChar d).toNat - 48 = d := by
  interval_cases d <;> rfl

theorem toDigitsCore_value (fuel : Nat) :
    ∀ (n : Nat) (ds : List Char), n < fuel →
      (Nat.toDigitsCore 10 fuel n ds).foldl (fun acc c => 10 * acc + (c.toNat - 48)) 0
        = ds.foldl (fun acc c => 10 * acc + (c.toNat - 48)) n := by
  induction fuel with
  | zero => intro n ds h; omega
  | succ fuel ih =>
    intro n ds h
    simp only [Nat.toDigitsCore]
    by_cases h0 : n / 10 = 0
    · simp only [h0, if_true, List.foldl_cons, Nat.mul_zero, Nat.zero_add]
      rw [digitChar_value _ (Nat.mod_lt _ (by decide))]
      have : n % 10 = n := Nat.mod_eq_of_lt (by omega)
      rw [this]
    · simp only [h0, if_false]
      rw [ih (n / 10) _ (by omega)]
      simp only [List.foldl_cons]
      rw [digitChar_value _ (Nat.mod_lt _ (by decide))]
      have : 10 * (n / 10) + n % 10 = n := Nat.div_add_mod n 10
      rw [this]

theorem toString_nat_injective (n m : Nat) (h : toString n = toString m) : n = m := by
  have h' : Nat.toDigits 10 n = Nat.toDigits 10 m := by
    have : (Nat.toDigits 10 n).asString = (Nat.toDigits 10 m).asString := h
    exact congrArg String.data this
  have hn := toDigitsCore_value (n + 1) n [] (by omega)
  have hm := toDigitsCore_value (m + 1) m [] (by omega)
  simp only [List.foldl_nil] at hn hm
  rw [← hn, ← hm]
  show (Nat.toDigits 10 n).foldl _ 0 = (Nat.toDigits 10 m).foldl _ 0
  rw [h']

theorem append_inj_of_length (p q s t : String) (hlen : p.length = q.length)
    (h : p ++ s = q ++ t) : p = q ∧ s = t := by
  have hd : p.data ++ s.data = q.data ++ t.data := by
    have := congrArg String.data h
    simpa using this
  have := List.append_inj hd hlen
  exact ⟨String.ext this.1, String.ext this.2⟩

theorem derivedId_injective (a b : Asset) (ha : isCategory a.assetType)
    (hb : isCategory b.assetType) (h : (tagNode 0 a).id = (tagNode 0 b).id) :
    a.assetType = b.assetType ∧ a.categoryId = b.categoryId := by
  rcases ha with ha | ha | ha | ha | ha | ha <;>
    rcases hb with hb | hb | hb | hb | hb | hb <;>
    simp only [tagNode, ha, hb, if_true, String.reduceEq, if_false, Option.some.injEq] at h <;>
    obtain ⟨hp, hs⟩ := append_inj_of_length _ _ _ _ (by decide) h <;>
    first
    | exact absurd hp (by decide)
    | exact ⟨by rw [ha, hb], toString_nat_injective _ _ hs⟩

/-! ## Tagged nodes and the search for a displayed node -/


@[simp] theorem tagNode_assetType (index : Nat) (x : Asset) :
    (tagNode index x).assetType = x.assetType := by
  simp only [tagNode]; split_ifs <;> rfl

@[simp] theorem tagNode_categoryId (index : Nat) (x : Asset) :
    (tagNode index x).categoryId = x.categoryId := by
  simp only [tagNode]; split_ifs <;> rfl

@[simp] theorem tagNode_connections (index : Nat) (x : Asset) :
    (tagNode index x).connections = some 0 := by
  simp only [tagNode]; split_ifs <;> rfl

theorem tagNode_id (index : Nat) (x : Asset) : (tagNode index x).id = (tagNode 0 x).id :=
  rfl

theorem tagNode_id_congr (x y : Asset) (hx : isCategory x.assetType)
    (ht : x.assetType = y.assetType) (hi : x.categoryId = y.categoryId) :
    (tagNode 0 x).id = (tagNode 0 y).id := by
  rcases hx with h | h | h | h | h | h <;>
    simp [tagNode, ← ht, ← hi, h]

theorem equal_congr_left (x y a : Asset) (ht : x.assetType = y.assetType)
    (hi : x.categoryId = y.categoryId) : equal x a = equal y a := by
  simp only [equal, equalProps, Asset.idField, ht, hi]

theorem equal_tagNode (index : Nat) (x a : Asset) : equal (tagNode index x) a = equal x a :=
  equal_congr_left _ _ _ (tagNode_assetType index x) (tagNode_categoryId index x)

theorem equal_self (x : Asset) (hx : isCategory x.assetType) : equal x x = true :=
  (equal_eq_true_iff x x hx).mpr ⟨rfl, rfl⟩

theorem getElem?_tagNodesFrom (nodes : List Asset) :
    ∀ (start i : Nat),
      (tagNodesFrom start nodes)[i]? = nodes[i]?.map (fun x => tagNode (start + i) x) := by
  induction nodes with
  | nil => intro start i; simp [tagNodesFrom]
  | cons node rest ih =>
    intro start i
    cases i with
    | zero => simp [tagNodesFrom]
    | succ i =>
      simp only [tagNodesFrom, List.getElem?_cons_succ, ih]
      congr 2
      funext x
      congr 1
      omega

theorem findNode_map (p : Asset → Bool) (f : Asset → Asset) (nodes : List Asset) :
    findNode p (nodes.map f) = findNode (fun x => p (f x)) nodes := by
  induction nodes with
  | nil => rfl
  | cons node rest ih => simp [findNode, ih]

theorem findNode_resetConnections (a : Asset) (nodes : List Asset) :
    findNode (fun node => equal node a) (resetConnections nodes)
      = findNode (fun node => equal node a) nodes := by
  rw [resetConnections, findNode_map]
  rfl

theorem findNode_congr_reset (a : Asset) (nodes nodes' : List Asset)
    (h : resetConnections nodes = resetConnections nodes') :
    findNode (fun node => equal node a) nodes = findNode (fun node => equal node a) nodes' := by
  rw [← findNode_resetConnections a nodes, h, findNode_resetConnections]

theorem findNode_isSome_of_mem (p : Asset → Bool) (nodes : List Asset) (x : Asset)
    (hx : x ∈ nodes) (hp : p x = true) : ∃ k, findNode p nodes = some k := by
  induction nodes with
  | nil => simp at hx
  | cons node rest ih =>
    simp only [findNode]
    by_cases hn : p node = true
    · exact ⟨0, by simp [hn]⟩
    · rcases List.mem_cons.mp hx with h | h
      · subst h; exact absurd hp hn
      · obtain ⟨k, hk⟩ := ih h
        exact ⟨k + 1, by simp [hn, hk]⟩

theorem findNode_spec (p : Asset → Bool) (nodes : List Asset) :
    ∀ k, findNode p nodes = some k → ∃ x, nodes[k]? = some x ∧ p x = true := by
  induction nodes with
  | nil => intro k h; simp [findNode] at h
  | cons node rest ih =>
    intro k h
    simp only [findNode] at h
    split_ifs at h with hp
    · simp only [Option.some.injEq] at h; subst h
      exact ⟨node, by simp, hp⟩
    · cases hf : findNode p rest with
      | none => simp [hf] at h
      | some k' =>
        simp only [hf, Option.map_some', Option.some.injEq] at h
        subst h
        obtain ⟨x, hx, hpx⟩ := ih k' hf
        exact ⟨x, by simpa using hx, hpx⟩

theorem directOf_eq_fetchChildren (r : Repo) (existing : Asset) (direct : Option (List Asset))
    (hc : isCategory existing.assetType) (hi : existing.categoryId ≠ 0) :
    directOf r existing direct = fetchChildren r existing.assetType existing.categoryId := by
  rcases hc with h | h | h | h | h | h <;>
    simp [directOf, truthyId, Asset.idField, h, hi]

theorem definedNodes_map_some (nodes : List Asset) :
    definedNodes (nodes.map some) = .ok nodes := by
  induction nodes with
  | nil => rfl
  | cons node rest ih => simp [definedNodes, ih]

theorem resetConnections_tagNodesFrom (nodes : List Asset) :
    ∀ start, resetConnections (tagNodesFrom start nodes) = tagNodesFrom start nodes := by
  induction nodes with
  | nil => intro start; rfl
  | cons node rest ih =>
    intro start
    have := ih (start + 1)
    simp only [resetConnections] at this
    simp only [tagNodesFrom, resetConnections, List.map_cons, this, List.cons.injEq, and_true]
    have hc := tagNode_connections start node
    cases htn : tagNode start node with
    | mk t c n f i conn g =>
      rw [htn] at hc
      simp only at hc
      simp [hc]

theorem createLinksLoop_total (r : Repo) (N : List Asset) (P : Nat → LoopState → Prop)
    (hstep : ∀ (index : Nat) (existing : Asset) (s : LoopState),
      N[index]? = some existing → P index s →
        ∃ s', createLinksStep r index existing s = .ok s' ∧ P (index + 1) s') :
    ∀ (pending done : List Asset) (s : LoopState), N = done ++ pending → P done.length s →
      ∃ s', createLinksLoop r done.length pending s = .ok s' ∧ P N.length s' := by
  intro pending
  induction pending with
  | nil =>
    intro done s hN hP
    refine ⟨s, rfl, ?_⟩
    simpa [hN] using hP
  | cons existing rest ih =>
    intro done s hN hP
    have he : N[done.length]? = some existing := by
      rw [hN, List.getElem?_append_right (Nat.le_refl _)]; simp
    obtain ⟨s1, hs1, hP1⟩ := hstep done.length existing s he hP
    have hN' : N = (done ++ [existing]) ++ rest := by simp [hN]
    have := ih (done ++ [existing]) s1 hN'
    simp only [List.length_append, List.length_singleton] at this
    obtain ⟨s', hs', hP'⟩ := this hP1
    exact ⟨s', by simp only [createLinksLoop, hs1, hs'], hP'⟩

theorem map_identityOf_resetConnections (nodes : List Asset) :
    (resetConnections nodes).map identityOf = nodes.map identityOf := by
  simp only [resetConnections, List.map_map]
  rfl

theorem map_identityOf_of_resetConnections (nodes nodes' : List Asset)
    (h : resetConnections nodes = resetConnections nodes') :
    nodes.map identityOf = nodes'.map identityOf := by
  rw [← map_identityOf_resetConnections nodes, h, map_identityOf_resetConnections]

/-! ## The loop of createLinks -/

theorem equalEntry_eq_false (asset1 : Asset) (impl : Entry) : equalEntry asset1 impl = false := by
  simp only [equalEntry, equalProps, Entry.idField, Asset.idField]
  split_ifs <;> simp_all

theorem findCached_eq_none (impl : Entry) (cached : List Entry) :
    findCached impl cached = none := by
  induction cached with
  | nil => rfl
  | cons undisp rest ih => simp [findCached, equalEntry_eq_false, ih]

theorem dedupe_eq (id : Option String) (remaining : Nat) :
    ∀ (index : Nat) (cached array : List Entry),
      dedupe id remaining index cached array = .ok (cached, array) := by
  induction remaining with
  | zero => intro index cached array; rfl
  | succ n ih =>
    intro index cached array
    cases h : array.get? index with
    | none => simp only [dedupe, h, ih]
    | some impl => simp only [dedupe, h, findCached_eq_none, ih]

theorem createLinksStep_eq (r : Repo) (index : Nat) (existing : Asset) (s : LoopState) :
    createLinksStep r index existing s =
      match directOf r existing s.direct with
      | .error e => .error e
      | .ok direct =>
        match getImplicitConnections r existing.categoryId existing.assetType with
        | .error e => .error e
        | .ok implicit => .ok (stepResult index existing s direct implicit) := by
  unfold createLinksStep
  cases directOf r existing s.direct with
  | error e => rfl
  | ok direct =>
    cases getImplicitConnections r existing.categoryId existing.assetType with
    | error e => rfl
    | ok implicit =>
      cases direct with
      | none => simp [dedupe_eq, stepResult]
      | some direct => simp [dedupe_eq, stepResult]

theorem createLinksStep_sameGraph (r : Repo) (index : Nat) (existing : Asset)
    (s t s' : LoopState) (hst : s.sameGraph t)
    (h : createLinksStep r index existing s = .ok s') :
    ∃ t', createLinksStep r index existing t = .ok t' ∧ s'.sameGraph t' := by
  obtain ⟨hd, hg, hl, hn⟩ := hst
  rw [createLinksStep_eq] at h ⊢
  rw [← hd]
  cases hdir : directOf r existing s.direct with
  | error e => simp [hdir] at h
  | ok direct =>
    cases himp : getImplicitConnections r existing.categoryId existing.assetType with
    | error e => simp [hdir, himp] at h
    | ok implicit =>
      simp only [hdir, himp, Except.ok.injEq] at h ⊢
      subst h
      refine ⟨_, rfl, ?_⟩
      cases direct <;> simp [LoopState.sameGraph, stepResult, hg, hl, hn]

theorem createLinksLoop_sameGraph (r : Repo) (pending : List Asset) :
    ∀ (index : Nat) (s t s' : LoopState), s.sameGraph t →
      createLinksLoop r index pending s = .ok s' →
      ∃ t', createLinksLoop r index pending t = .ok t' ∧ s'.sameGraph t' := by
  induction pending with
  | nil =>
    intro index s t s' hst h
    simp only [createLinksLoop, Except.ok.injEq] at h
    subst h
    exact ⟨t, rfl, hst⟩
  | cons existing rest ih =>
    intro index s t s' hst h
    simp only [createLinksLoop] at h ⊢
    cases hstep : createLinksStep r index existing s with
    | error e => simp [hstep] at h
    | ok s1 =>
      obtain ⟨t1, ht1, hsame⟩ := createLinksStep_sameGraph r index existing s t s1 hst hstep
      simp only [hstep] at h
      simp only [ht1]
      exact ih (index + 1) s1 t1 s' hsame h

/-- The links and the nodes createLinks returns do not depend on the frontier it
starts from. -/
theorem createLinks_frontier_independent (r : Repo) (st st2 : GraphState) (nodes : List Asset)
    (links : List Link) (nodes' : List Asset) (st' : GraphState)
    (h : createLinks r st nodes = .ok (links, nodes', st')) :
    ∃ st2', createLinks r st2 nodes = .ok (links, nodes', st2') := by
  unfold createLinks at h ⊢
  cases hloop : createLinksLoop r 0 nodes
      { direct := none, inGraph := [], cached := st.undisplayed, added := [], links := [],
        nodes := nodes } with
  | error e => simp [hloop] at h
  | ok s =>
    simp only [hloop, Except.ok.injEq, Prod.mk.injEq] at h
    obtain ⟨hl, hn, _⟩ := h
    obtain ⟨t, ht, _, _, htl, htn⟩ := createLinksLoop_sameGraph r nodes 0
      { direct := none, inGraph := [], cached := st.undisplayed, added := [], links := [],
        nodes := nodes }
      { direct := none, inGraph := [], cached := st2.undisplayed, added := [], links := [],
        nodes := nodes } s ⟨rfl, rfl, rfl, rfl⟩ hloop
    refine ⟨{ st2 with undisplayed := t.cached ++ t.added }, ?_⟩
    simp only [ht, ← htl, ← htn, hl, hn]

theorem createLinksLoop_invariant (r : Repo) (N : List Asset) (P : LoopState → Prop)
    (hstep : ∀ (index : Nat) (existing : Asset) (s s' : LoopState),
      N[index]? = some existing → P s → createLinksStep r index existing s = .ok s' → P s') :
    ∀ (pending done : List Asset) (s s' : LoopState), N = done ++ pending → P s →
      createLinksLoop r done.length pending s = .ok s' → P s' := by
  intro pending
  induction pending with
  | nil =>
    intro done s s' _ hP h
    simp only [createLinksLoop, Except.ok.injEq] at h
    subst h; exact hP
  | cons existing rest ih =>
    intro done s s' hN hP h
    simp only [createLinksLoop] at h
    cases hs : createLinksStep r done.length existing s with
    | error e => simp [hs] at h
    | ok s1 =>
      simp only [hs] at h
      have he : N[done.length]? = some existing := by
        rw [hN, List.getElem?_append_right (Nat.le_refl _)]; simp
      have hP1 := hstep done.length existing s s1 he hP hs
      have hN' : N = (done ++ [existing]) ++ rest := by simp [hN]
      have := ih (done ++ [existing]) s1 s' hN' hP1
      simp only [List.length_append, List.length_singleton] at this
      exact this h

/-- The loop of createLinks never changes the entries of the frontier it started
from: they are all still there, in front of the entries it adds. -/
theorem createLinks_keeps_frontier (r : Repo) (st : GraphState) (nodes : List Asset)
    (links : List Link) (nodes' : List Asset) (st' : GraphState)
    (h : createLinks r st nodes = .ok (links, nodes', st')) :
    ∃ added, st'.undisplayed = st.undisplayed ++ added := by
  unfold createLinks at h
  cases hloop : createLinksLoop r 0 nodes
      { direct := none, inGraph := [], cached := st.undisplayed, added := [], links := [],
        nodes := nodes } with
  | error e => simp [hloop] at h
  | ok s =>
    simp only [hloop, Except.ok.injEq, Prod.mk.injEq] at h
    obtain ⟨_, _, hst⟩ := h
    have hcached : s.cached = st.undisplayed := by
      refine createLinksLoop_invariant r nodes (fun s => s.cached = st.undisplayed) ?_ nodes []
        _ s rfl rfl hloop
      intro index existing s1 s2 _ hP hstep
      rw [createLinksStep_eq] at hstep
      cases hdir : directOf r existing s1.direct with
      | error e => simp [hdir] at hstep
      | ok direct =>
        cases himp : getImplicitConnections r existing.categoryId existing.assetType with
        | error e => simp [hdir, himp] at hstep
        | ok implicit =>
          simp only [hdir, himp, Except.ok.injEq] at hstep
          subst hstep
          exact hP
    refine ⟨s.added, ?_⟩
    rw [← hst, hcached]

theorem resetConnections_addConnectionsAt (nodes : List Asset) :
    ∀ (index k : Nat),
      resetConnections (addConnectionsAt nodes index k) = resetConnections nodes := by
  induction nodes with
  | nil => intro index k; rfl
  | cons node rest ih =>
    intro index k
    cases index with
    | zero => simp [addConnectionsAt, addConnections, resetConnections]
    | succ i =>
      have := ih i k
      simp only [resetConnections] at this
      simp [addConnectionsAt, resetConnections, this]

theorem resetConnections_foldl (inGraph : List Nat) :
    ∀ nodes : List Asset,
      resetConnections (inGraph.foldl (fun nodes position => addConnectionsAt nodes position 1)
        nodes) = resetConnections nodes := by
  induction inGraph with
  | nil => intro nodes; rfl
  | cons p rest ih =>
    intro nodes
    simp only [List.foldl_cons, ih, resetConnections_addConnectionsAt]

theorem resetConnections_stepResult (index : Nat) (existing : Asset) (s : LoopState)
    (direct : Option (List Asset)) (implicit : List Asset) :
    resetConnections (stepResult index existing s direct implicit).nodes
      = resetConnections s.nodes := by
  simp only [stepResult, resetConnections_addConnectionsAt, resetConnections_foldl]

theorem resetConnections_createLinksStep (r : Repo) (index : Nat) (existing : Asset)
    (s s' : LoopState) (h : createLinksStep r index existing s = .ok s') :
    resetConnections s'.nodes = resetConnections s.nodes := by
  rw [createLinksStep_eq] at h
  cases hdir : directOf r existing s.direct with
  | error e => simp [hdir] at h
  | ok direct =>
    cases himp : getImplicitConnections r existing.categoryId existing.assetType with
    | error e => simp [hdir, himp] at h
    | ok implicit =>
      simp only [hdir, himp, Except.ok.injEq] at h
      subst h
      exact resetConnections_stepResult _ _ _ _ _

theorem resetConnections_createLinksLoop (r : Repo) (pending : List Asset) :
    ∀ (index : Nat) (s s' : LoopState), createLinksLoop r index pending s = .ok s' →
      resetConnections s'.nodes = resetConnections s.nodes := by
  induction pending with
  | nil =>
    intro index s s' h
    simp only [createLinksLoop, Except.ok.injEq] at h
    subst h; rfl
  | cons existing rest ih =>
    intro index s s' h
    simp only [createLinksLoop] at h
    cases hstep : createLinksStep r index existing s with
    | error e => simp [hstep] at h
    | ok s1 =>
      simp only [hstep] at h
      rw [ih (index + 1) s1 s' h, resetConnections_createLinksStep r index existing s s1 hstep]

/-- The nodes createLinks returns are the nodes it was given, up to the counters. -/
theorem resetConnections_createLinks (r : Repo) (st : GraphState) (nodes : List Asset)
    (links : List Link) (nodes' : List Asset) (st' : GraphState)
    (h : createLinks r st nodes = .ok (links, nodes', st')) :
    resetConnections nodes' = resetConnections nodes := by
  unfold createLinks at h
  cases hloop : createLinksLoop r 0 nodes
      { direct := none, inGraph := [], cached := st.undisplayed, added := [], links := [],
        nodes := nodes } with
  | error e => simp [hloop] at h
  | ok s =>
    simp only [hloop, Except.ok.injEq, Prod.mk.injEq] at h
    obtain ⟨_, hn, _⟩ := h
    rw [← hn]
    exact resetConnections_createLinksLoop r nodes 0 _ s hloop

theorem resetConnections_idem (nodes : List Asset) :
    resetConnections (resetConnections nodes) = resetConnections nodes := by
  simp [resetConnections]

/-! ## Counters and links -/


theorem getElem?_addConnectionsAt (nodes : List Asset) :
    ∀ (index k j : Nat),
      (addConnectionsAt nodes index k)[j]? =
        if j = index then nodes[j]?.map (fun node => addConnections node k) else nodes[j]? := by
  induction nodes with
  | nil => intro index k j; simp [addConnectionsAt]
  | cons node rest ih =>
    intro index k j
    cases index with
    | zero =>
      cases j with
      | zero => simp [addConnectionsAt]
      | succ j => simp [addConnectionsAt]
    | succ i =>
      cases j with
      | zero => simp [addConnectionsAt]
      | succ j => simp [addConnectionsAt, ih]

theorem addConnections_addConnections (node : Asset) (a b : Nat) :
    addConnections (addConnections node a) b = addConnections node (a + b) := by
  cases node with
  | mk t c n f i conn g =>
    cases conn <;> simp [addConnections, Nat.add_assoc]

theorem addConnections_zero (node : Asset) : addConnections node 0 = node := by
  cases node with
  | mk t c n f i conn g =>
    cases conn <;> simp [addConnections]

theorem getElem?_foldl_addConnectionsAt (inGraph : List Nat) :
    ∀ (nodes : List Asset) (j : Nat),
      (inGraph.foldl (fun nodes position => addConnectionsAt nodes position 1) nodes)[j]? =
        nodes[j]?.map (fun node => addConnections node (inGraph.count j)) := by
  induction inGraph with
  | nil =>
    intro nodes j
    simp [addConnections_zero]
  | cons p rest ih =>
    intro nodes j
    simp only [List.foldl_cons, ih, getElem?_addConnectionsAt]
    by_cases hj : j = p
    · subst hj
      simp only [if_true, Option.map_map, List.count_cons_self]
      congr 1
      funext node
      simp [addConnections_addConnections, Nat.add_comm]
    · have hne : (p == j) = false := by simpa using fun h => hj h.symm
      simp [hj, List.count_cons, hne]


theorem findNode_lt (p : Asset → Bool) (nodes : List Asset) :
    ∀ k, findNode p nodes = some k → k < nodes.length := by
  induction nodes with
  | nil => intro k h; simp [findNode] at h
  | cons node rest ih =>
    intro k h
    simp only [findNode] at h
    split_ifs at h with hp
    · simp only [Option.some.injEq] at h; subst h; simp
    · cases hf : findNode p rest with
      | none => simp [hf] at h
      | some k' =>
        simp only [hf, Option.map_some', Option.some.injEq] at h
        subst h
        have := ih k' hf
        simp only [List.length_cons]; omega

theorem mem_inGraphOf_lt (nodes direct : List Asset) (p : Nat) (h : p ∈ inGraphOf nodes direct) :
    p < nodes.length := by
  simp only [inGraphOf, List.mem_filterMap] at h
  obtain ⟨connected, _, hc⟩ := h
  exact findNode_lt _ _ _ hc

theorem length_eq_of_resetConnections (a b : List Asset)
    (h : resetConnections a = resetConnections b) : a.length = b.length := by
  have := congrArg List.length h
  simpa [resetConnections] using this

theorem idAt_of_resetConnections (a b : List Asset)
    (h : resetConnections a = resetConnections b) (p : Nat) : idAt a p = idAt b p := by
  have h' := congrArg (fun l => l[p]?) h
  simp only [resetConnections, List.getElem?_map] at h'
  simp only [idAt, List.get?_eq_getElem?]
  cases ha : a[p]? with
  | none =>
    cases hb : b[p]? with
    | none => rfl
    | some n => simp [ha, hb] at h'
  | some m =>
    cases hb : b[p]? with
    | none => simp [ha, hb] at h'
    | some n =>
      simp only [ha, hb, Option.map_some', Option.some.injEq, Asset.mk.injEq] at h'
      exact h'.2.2.2.2.1

theorem linksTouching_append (l1 l2 : List Link) (id : Option String) :
    linksTouching (l1 ++ l2) id = linksTouching l1 id + linksTouching l2 id := by
  simp only [linksTouching, List.countP_append]; omega

theorem countInv_stepResult (N : List Asset)
    (hid : ∀ (p j : Nat) (np nj : Asset), N[p]? = some np → N[j]? = some nj → np.id = nj.id → p = j)
    (index : Nat) (existing : Asset) (s : LoopState) (direct : Option (List Asset))
    (implicit : List Asset) (he : N[index]? = some existing) (hs : CountInv N s) :
    CountInv N (stepResult index existing s direct implicit) := by
  obtain ⟨hreset, hcount, hin⟩ := hs
  have hlen := length_eq_of_resetConnections _ _ hreset
  have hreset' : resetConnections (stepResult index existing s direct implicit).nodes
      = resetConnections N := by
    rw [resetConnections_stepResult, hreset]
  have hin' : ∀ p ∈ (stepResult index existing s direct implicit).inGraph, p < N.length := by
    intro p hp
    cases direct with
    | none => exact hin p hp
    | some d =>
      have := mem_inGraphOf_lt s.nodes d p hp
      omega
  refine ⟨hreset', ?_, hin'⟩
  intro j n hj
  obtain ⟨m, hm, hmc⟩ := hcount j n hj
  generalize hG : (stepResult index existing s direct implicit).inGraph = G at hin'
  have hnodes : (stepResult index existing s direct implicit).nodes =
      addConnectionsAt (G.foldl (fun nodes position => addConnectionsAt nodes position 1)
        s.nodes) index G.length := by
    rw [← hG]; cases direct <;> rfl
  have hlinks : (stepResult index existing s direct implicit).links =
      s.links ++ G.map (fun position =>
        ({ source := existing.id,
           target := idAt (stepResult index existing s direct implicit).nodes position,
           value := 1 } : Link)) := by
    rw [← hG]; cases direct <;> rfl
  have hsrc : List.countP (fun position => decide (existing.id = n.id)) G
      = if j = index then G.length else 0 := by
    by_cases hji : j = index
    · subst hji
      have : existing = n := by rw [he] at hj; exact Option.some.inj hj
      subst this
      simp
    · have hne : ¬ existing.id = n.id := fun h => hji (hid index j existing n he hj h).symm
      simp [hji, hne]
  have htgt : List.countP (fun position =>
      decide (idAt (stepResult index existing s direct implicit).nodes position = n.id)) G
      = G.count j := by
    rw [List.count_eq_countP]
    apply List.countP_congr
    intro p hp
    have hp' : p < N.length := hin' p hp
    have hNp : N[p]? = some N[p] := List.getElem?_eq_getElem hp'
    rw [idAt_of_resetConnections _ _ hreset' p]
    simp only [idAt, List.get?_eq_getElem?, hNp, decide_eq_true_eq, beq_iff_eq]
    constructor
    · intro h; exact hid p j _ n hNp hj h
    · intro h; subst h; rw [hNp] at hj; rw [Option.some.inj hj]
  refine ⟨addConnections (addConnections m (G.count j)) (if j = index then G.length else 0), ?_, ?_⟩
  · rw [hnodes, getElem?_addConnectionsAt, getElem?_foldl_addConnectionsAt, hm]
    by_cases hji : j = index
    · simp [hji]
    · simp [hji, addConnections_zero]
  · rw [hlinks, linksTouching_append]
    have : linksTouching (G.map (fun position =>
        ({ source := existing.id,
           target := idAt (stepResult index existing s direct implicit).nodes position,
           value := 1 } : Link))) n.id
        = (if j = index then G.length else 0) + G.count j := by
      simp only [linksTouching, List.countP_map]
      have e1 : ((fun link : Link => decide (link.source = n.id)) ∘ fun position =>
          ({ source := existing.id,
             target := idAt (stepResult index existing s direct implicit).nodes position,
             value := 1 } : Link)) = fun position => decide (existing.id = n.id) := rfl
      have e2 : ((fun link : Link => decide (link.target = n.id)) ∘ fun position =>
          ({ source := existing.id,
             target := idAt (stepResult index existing s direct implicit).nodes position,
             value := 1 } : Link)) = fun position =>
            decide (idAt (stepResult index existing s direct implicit).nodes position = n.id) :=
        rfl
      rw [e1, e2, hsrc, htgt]
    rw [this]
    simp only [addConnections, hmc, Option.map_some', Option.some.injEq]
    omega


theorem id_ne_of_not_equal (a b : Asset) (ha : isCategory a.assetType)
    (hb : isCategory b.assetType) (hta : a.id = (tagNode 0 a).id) (htb : b.id = (tagNode 0 b).id)
    (hne : equal a b = false) : a.id ≠ b.id := by
  intro h
  rw [hta, htb] at h
  have := (equal_eq_true_iff a b ha).mpr (derivedId_injective a b ha hb h)
  rw [this] at hne
  exact Bool.noConfusion hne

/-- C3. For nodes of the six categories that carry their derived ids, are pairwise
distinct under `equal` and have counter 0, a call of createLinks that returns leaves
at every position a counter equal to the number of returned links touching that
node (source plus target occurrences of its id), and changes nothing else of the nodes. -/
theorem connections_eq_linksTouching (r : Repo) (st : GraphState)
    (nodes : List Asset) (links : List Link) (nodes' : List Asset) (st' : GraphState)
    (hcat : ∀ n ∈ nodes, isCategory n.assetType)
    (htag : ∀ n ∈ nodes, n.id = (tagNode 0 n).id)
    (hdist : nodes.Pairwise (fun a b => equal a b = false))
    (hzero : ∀ n ∈ nodes, n.connections = some 0)
    (hrun : createLinks r st nodes = .ok (links, nodes', st')) :
    nodes'.map (fun n => n.connections)
        = nodes.map (fun n => some (linksTouching links n.id)) ∧
      resetConnections nodes' = resetConnections nodes := by
  have hpair : nodes.Pairwise (fun a b => a.id ≠ b.id) :=
    hdist.imp_of_mem (fun {a b} ha hb hab =>
      id_ne_of_not_equal a b (hcat a ha) (hcat b hb) (htag a ha) (htag b hb) hab)
  have hid : ∀ (p j : Nat) (np nj : Asset), nodes[p]? = some np → nodes[j]? = some nj →
      np.id = nj.id → p = j := by
    intro p j np nj hp hj h
    obtain ⟨hp1, hp2⟩ := List.getElem?_eq_some.mp hp
    obtain ⟨hj1, hj2⟩ := List.getElem?_eq_some.mp hj
    rcases Nat.lt_trichotomy p j with hlt | heq | hgt
    · have := List.pairwise_iff_getElem.mp hpair p j hp1 hj1 hlt
      rw [hp2, hj2] at this
      exact absurd h this
    · exact heq
    · have := List.pairwise_iff_getElem.mp hpair j p hj1 hp1 hgt
      rw [hp2, hj2] at this
      exact absurd h.symm this
  unfold createLinks at hrun
  cases hloop : createLinksLoop r 0 nodes
      { direct := none, inGraph := [], cached := st.undisplayed, added := [], links := [],
        nodes := nodes } with
  | error e => simp [hloop] at hrun
  | ok s =>
    simp only [hloop, Except.ok.injEq, Prod.mk.injEq] at hrun
    obtain ⟨hl, hn, _⟩ := hrun
    have hinit : CountInv nodes
        { direct := none, inGraph := [], cached := st.undisplayed, added := [], links := [],
          nodes := nodes } := by
      refine ⟨rfl, ?_, by simp⟩
      intro j n hj
      refine ⟨n, hj, ?_⟩
      rw [hzero n (List.getElem?_mem hj)]
      simp [linksTouching]
    have hfinal : CountInv nodes s := by
      refine createLinksLoop_invariant r nodes (CountInv nodes) ?_ nodes [] _ s rfl hinit hloop
      intro index existing s1 s2 he hP hstep
      rw [createLinksStep_eq] at hstep
      cases hdir : directOf r existing s1.direct with
      | error e => simp [hdir] at hstep
      | ok direct =>
        cases himp : getImplicitConnections r existing.categoryId existing.assetType with
        | error e => simp [hdir, himp] at hstep
        | ok implicit =>
          simp only [hdir, himp, Except.ok.injEq] at hstep
          subst hstep
          exact countInv_stepResult nodes hid index existing s1 direct implicit he hP
    obtain ⟨hreset, hcount, _⟩ := hfinal
    subst hl hn
    refine ⟨?_, hreset⟩
    apply List.ext_getElem?
    intro j
    simp only [List.getElem?_map]
    cases hj : nodes[j]? with
    | none =>
      have hlen := length_eq_of_resetConnections _ _ hreset
      have : s.nodes[j]? = none := by
        rw [List.getElem?_eq_none_iff] at hj ⊢
        omega
      simp [this]
    | some n =>
      obtain ⟨m, hm, hmc⟩ := hcount j n hj
      simp [hm, hmc]

/-- C3, at the list `[A, B, C]` where A has the direct children B and C: the
counters are 2, 1, 1 and there are exactly two links. -/
theorem connections_eq_linksTouching_witness :
    (∀ n ∈ fanNodes, isCategory n.assetType) ∧
      (∀ n ∈ fanNodes, n.id = (tagNode 0 n).id) ∧
      fanNodes.Pairwise (fun a b => equal a b = false) ∧
      (∀ n ∈ fanNodes, n.connections = some 0) ∧
      createLinks fanRepo GraphState.initial fanNodes
        = .ok ([{ source := some "A-1", target := some "A-2", value := 1 },
                { source := some "A-1", target := some "A-3", value := 1 }],
               [addConnections (tagNode 0 (app 1 [])) 2, addConnections (tagNode 1 (app 2 [])) 1,
                addConnections (tagNode 2 (app 3 [])) 1], GraphState.initial) ∧
      [addConnections (tagNode 0 (app 1 [])) 2, addConnections (tagNode 1 (app 2 [])) 1,
          addConnections (tagNode 2 (app 3 [])) 1].map (fun n => n.connections)
        = [some 2, some 1, some 1] ∧
      ([addConnections (tagNode 0 (app 1 [])) 2, addConnections (tagNode 1 (app 2 [])) 1,
          addConnections (tagNode 2 (app 3 [])) 1].map (fun n => n.connections)
          = fanNodes.map (fun n => some (linksTouching
              [{ source := some "A-1", target := some "A-2", value := 1 },
               { source := some "A-1", target := some "A-3", value := 1 }] n.id)) ∧
        resetConnections [addConnections (tagNode 0 (app 1 [])) 2,
            addConnections (tagNode 1 (app 2 [])) 1, addConnections (tagNode 2 (app 3 [])) 1]
          = resetConnections fanNodes) :=
  ⟨by decide, by decide, by decide, by decide, rfl, rfl,
    connections_eq_linksTouching fanRepo GraphState.initial fanNodes _ _ _
      (by decide) (by decide) (by decide) (by decide) rfl⟩

/-! ## Calling createLinks twice -/


theorem inGraphOf_congr_reset (nodes nodes' direct : List Asset)
    (h : resetConnections nodes = resetConnections nodes') :
    inGraphOf nodes direct = inGraphOf nodes' direct := by
  simp only [inGraphOf]
  congr 1
  funext connected
  exact findNode_congr_reset connected nodes nodes' h

theorem stepResult_links (index : Nat) (existing : Asset) (s : LoopState)
    (direct : Option (List Asset)) (implicit : List Asset) :
    (stepResult index existing s direct implicit).links =
      s.links ++ (stepResult index existing s direct implicit).inGraph.map (fun position =>
        ({ source := existing.id,
           target := idAt (stepResult index existing s direct implicit).nodes position,
           value := 1 } : Link)) := by
  cases direct <;> rfl

theorem stepResult_sameLinks (index : Nat) (existing : Asset) (s t : LoopState)
    (direct : Option (List Asset)) (implicit : List Asset) (hst : s.sameLinks t) :
    (stepResult index existing s direct implicit).sameLinks
      (stepResult index existing t direct implicit) := by
  obtain ⟨_, hg, hl, hn⟩ := hst
  have hG : (stepResult index existing s direct implicit).inGraph
      = (stepResult index existing t direct implicit).inGraph := by
    cases direct with
    | none => exact hg
    | some d => exact inGraphOf_congr_reset s.nodes t.nodes d hn
  have hR : resetConnections (stepResult index existing s direct implicit).nodes
      = resetConnections (stepResult index existing t direct implicit).nodes := by
    rw [resetConnections_stepResult, resetConnections_stepResult, hn]
  refine ⟨rfl, hG, ?_, hR⟩
  rw [stepResult_links, stepResult_links, hl, hG]
  congr 2
  funext position
  rw [idAt_of_resetConnections _ _ hR position]

theorem createLinksStep_sameLinks (r : Repo) (index : Nat) (existing : Asset)
    (s t s' : LoopState) (hst : s.sameLinks t)
    (h : createLinksStep r index existing s = .ok s') :
    ∃ t', createLinksStep r index existing t = .ok t' ∧ s'.sameLinks t' := by
  rw [createLinksStep_eq] at h ⊢
  rw [← hst.1]
  cases hdir : directOf r existing s.direct with
  | error e => simp [hdir] at h
  | ok direct =>
    cases himp : getImplicitConnections r existing.categoryId existing.assetType with
    | error e => simp [hdir, himp] at h
    | ok implicit =>
      simp only [hdir, himp, Except.ok.injEq] at h ⊢
      subst h
      exact ⟨_, rfl, stepResult_sameLinks index existing s t direct implicit hst⟩

theorem createLinksStep_congr_existing (r : Repo) (index : Nat) (existing existing' : Asset)
    (s : LoopState)
    (h : ({ existing with connections := some 0 } : Asset)
      = { existing' with connections := some 0 }) :
    createLinksStep r index existing s = createLinksStep r index existing' s := by
  have h1 : createLinksStep r index existing s
      = createLinksStep r index { existing with connections := some 0 } s := rfl
  have h2 : createLinksStep r index existing' s
      = createLinksStep r index { existing' with connections := some 0 } s := rfl
  rw [h1, h2, h]

theorem createLinksLoop_sameLinks (r : Repo) (pending : List Asset) :
    ∀ (pending' : List Asset) (index : Nat) (s t s' : LoopState),
      resetConnections pending = resetConnections pending' → s.sameLinks t →
      createLinksLoop r index pending s = .ok s' →
      ∃ t', createLinksLoop r index pending' t = .ok t' ∧ s'.sameLinks t' := by
  induction pending with
  | nil =>
    intro pending' index s t s' hp hst h
    cases pending' with
    | nil =>
      simp only [createLinksLoop, Except.ok.injEq] at h
      subst h
      exact ⟨t, rfl, hst⟩
    | cons a l => simp [resetConnections] at hp
  | cons existing rest ih =>
    intro pending' index s t s' hp hst h
    cases pending' with
    | nil => simp [resetConnections] at hp
    | cons existing' rest' =>
      simp only [resetConnections, List.map_cons, List.cons.injEq] at hp
      simp only [createLinksLoop] at h ⊢
      cases hstep : createLinksStep r index existing s with
      | error e => simp [hstep] at h
      | ok s1 =>
        obtain ⟨t1, ht1, hsame⟩ := createLinksStep_sameLinks r index existing s t s1 hst hstep
        rw [createLinksStep_congr_existing r index existing existing' t hp.1] at ht1
        simp only [hstep] at h
        simp only [ht1]
        exact ih rest' (index + 1) s1 t1 s' hp.2 hsame h

/-- The links createLinks returns depend on the nodes only up to their counters, and
not on the frontier: a run on the same nodes with other counters and another
frontier returns the same links. -/
theorem createLinks_links_independent (r : Repo) (st st2 : GraphState)
    (nodes nodes2 : List Asset) (links : List Link) (nodes' : List Asset) (st' : GraphState)
    (hnodes : resetConnections nodes = resetConnections nodes2)
    (h : createLinks r st nodes = .ok (links, nodes', st')) :
    ∃ nodes2' st2', createLinks r st2 nodes2 = .ok (links, nodes2', st2') := by
  unfold createLinks at h ⊢
  cases hloop : createLinksLoop r 0 nodes
      { direct := none, inGraph := [], cached := st.undisplayed, added := [], links := [],
        nodes := nodes } with
  | error e => simp [hloop] at h
  | ok s =>
    simp only [hloop, Except.ok.injEq, Prod.mk.injEq] at h
    obtain ⟨hl, _, _⟩ := h
    obtain ⟨t, ht, _, _, htl, _⟩ := createLinksLoop_sameLinks r nodes nodes2 0
      { direct := none, inGraph := [], cached := st.undisplayed, added := [], links := [],
        nodes := nodes }
      { direct := none, inGraph := [], cached := st2.undisplayed, added := [], links := [],
        nodes := nodes2 } s hnodes ⟨rfl, rfl, rfl, hnodes⟩ hloop
    refine ⟨t.nodes, { st2 with undisplayed := t.cached ++ t.added }, ?_⟩
    simp only [ht, ← htl, hl]

/-- C4, as amended. A second call of createLinks on the node list the first call
returned yields the same links; and when every counter was 0 before the first call
and is reset to 0 before the second, it yields the same nodes, counters included,
whatever frontier the first call left. -/
theorem createLinks_twice (r : Repo) (st : GraphState) (nodes : List Asset)
    (links1 : List Link) (nodes1 : List Asset) (st1 : GraphState)
    (h1 : createLinks r st nodes = .ok (links1, nodes1, st1)) :
    (∃ nodes2 st2, createLinks r st1 nodes1 = .ok (links1, nodes2, st2)) ∧
      (resetConnections nodes = nodes →
        ∃ st2, createLinks r st1 (resetConnections nodes1) = .ok (links1, nodes1, st2)) := by
  have hreset := resetConnections_createLinks r st nodes links1 nodes1 st1 h1
  refine ⟨createLinks_links_independent r st st1 nodes nodes1 links1 nodes1 st1 hreset.symm h1,
    ?_⟩
  intro h0
  rw [hreset, h0]
  exact createLinks_frontier_independent r st st1 nodes links1 nodes1 st1 h1

/-- C4 as amended, at the list `[A, B, C]` where A has the direct children B and C:
the counters are 0 before the first call, the second call returns the same links,
and after a reset it returns the same counters 2, 1, 1. -/
theorem createLinks_twice_witness :
    createLinks fanRepo GraphState.initial fanNodes
        = .ok ([{ source := some "A-1", target := some "A-2", value := 1 },
                { source := some "A-1", target := some "A-3", value := 1 }],
               [addConnections (tagNode 0 (app 1 [])) 2, addConnections (tagNode 1 (app 2 [])) 1,
                addConnections (tagNode 2 (app 3 [])) 1], GraphState.initial) ∧
      resetConnections fanNodes = fanNodes ∧
      ((∃ nodes2 st2, createLinks fanRepo GraphState.initial
            [addConnections (tagNode 0 (app 1 [])) 2, addConnections (tagNode 1 (app 2 [])) 1,
             addConnections (tagNode 2 (app 3 [])) 1]
          = .ok ([{ source := some "A-1", target := some "A-2", value := 1 },
                  { source := some "A-1", target := some "A-3", value := 1 }], nodes2, st2)) ∧
        (resetConnections fanNodes = fanNodes →
          ∃ st2, createLinks fanRepo GraphState.initial
              (resetConnections [addConnections (tagNode 0 (app 1 [])) 2,
                addConnections (tagNode 1 (app 2 [])) 1, addConnections (tagNode 2 (app 3 [])) 1])
            = .ok ([{ source := some "A-1", target := some "A-2", value := 1 },
                    { source := some "A-1", target := some "A-3", value := 1 }],
                   [addConnections (tagNode 0 (app 1 [])) 2,
                    addConnections (tagNode 1 (app 2 [])) 1,
                    addConnections (tagNode 2 (app 3 [])) 1], st2))) :=
  ⟨rfl, rfl, createLinks_twice fanRepo GraphState.initial fanNodes _ _ _ rfl⟩

/-! ## What a rebuild keeps of the state it starts from -/

/-- The nodes and links initData builds do not depend on the state it starts from,
while every entry of the frontier it starts from is kept. -/
theorem initData_uses_prior_frontier_only (r : Repo) (st st2 : GraphState) (cat : String)
    (key : Nat) (st' : GraphState) (h : initData r st cat key = .ok st') :
    (∃ st2', initData r st2 cat key = .ok st2' ∧ st2'.nodes = st'.nodes ∧
        st2'.links = st'.links) ∧
      ∃ added, st'.undisplayed = st.undisplayed ++ added := by
  unfold initData at h ⊢
  cases hnodes : initNodes r cat key with
  | error e => simp [hnodes] at h
  | ok nodes =>
    simp only [hnodes] at h ⊢
    cases hlinks : createLinks r st nodes with
    | error e => simp [hlinks] at h
    | ok res =>
      obtain ⟨links, nodes', st1⟩ := res
      simp only [hlinks, Except.ok.injEq] at h
      subst h
      obtain ⟨st2', h2⟩ := createLinks_frontier_independent r st st2 nodes links nodes' st1 hlinks
      obtain ⟨added, hadded⟩ := createLinks_keeps_frontier r st nodes links nodes' st1 hlinks
      refine ⟨⟨{ st2' with nodes := nodes', links := links }, ?_, rfl, rfl⟩, added, hadded⟩
      rw [h2]

/-! ## Building the graph of a seed whose children are leaves -/


theorem findNode_tagNodesFrom (a : Asset) (nodes : List Asset) :
    ∀ start, findNode (fun node => equal node a) (tagNodesFrom start nodes)
      = findNode (fun node => equal node a) nodes := by
  induction nodes with
  | nil => intro start; rfl
  | cons node rest ih =>
    intro start
    simp only [tagNodesFrom, findNode, equal_tagNode, ih]

/-- A connection that equals one of the tagged assets is found among the nodes, and
the node found carries the connection's derived id. -/
theorem found_of_equal (X nodes : List Asset) (hX : ∀ x ∈ X, isCategory x.assetType)
    (hreset : resetConnections nodes = resetConnections (tagNodes X)) (a : Asset)
    (ha : ∃ m ∈ X, equal m a = true) :
    ∃ k, findNode (fun node => equal node a) nodes = some k ∧
      idAt (tagNodes X) k = (tagNode 0 a).id := by
  obtain ⟨m, hm, hma⟩ := ha
  obtain ⟨k, hk⟩ := findNode_isSome_of_mem (fun node => equal node a) X m hm hma
  refine ⟨k, ?_, ?_⟩
  · rw [findNode_congr_reset a nodes _ hreset, tagNodes, findNode_tagNodesFrom, hk]
  · obtain ⟨x, hx, hxa⟩ := findNode_spec _ X k hk
    have hxcat := hX x (List.getElem?_mem hx)
    have hsame := (equal_eq_true_iff x a hxcat).mp hxa
    simp only [idAt, List.get?_eq_getElem?, tagNodes, getElem?_tagNodesFrom, hx,
      Option.map_some']
    rw [tagNode_id]
    exact tagNode_id_congr x a hxcat hsame.1 hsame.2

theorem inGraphOf_links (nodes : List Asset) (source : Option String)
    (ids : Nat → Option String) (direct : List Asset)
    (hfound : ∀ c ∈ direct, ∃ k, findNode (fun node => equal node c) nodes = some k ∧
      ids k = (tagNode 0 c).id) :
    (inGraphOf nodes direct).map
        (fun position => ({ source := source, target := ids position, value := 1 } : Link))
      = direct.map
        (fun c => ({ source := source, target := (tagNode 0 c).id, value := 1 } : Link)) := by
  induction direct with
  | nil => rfl
  | cons c rest ih =>
    obtain ⟨k, hk, hid⟩ := hfound c (List.mem_cons_self _ _)
    have ih' := ih (fun c' hc' => hfound c' (List.mem_cons_of_mem _ hc'))
    simp only [inGraphOf] at ih' ⊢
    simp only [List.filterMap_cons, hk, List.map_cons, hid, ih']

theorem implicitEntries_eq_nil (nodes : List Asset) (existing : Asset) (implicit : List Asset)
    (hfound : ∀ a ∈ implicit, ∃ k, findNode (fun node => equal node a) nodes = some k) :
    implicitEntries nodes existing implicit = [] := by
  simp only [implicitEntries, List.map_eq_nil_iff, List.filter_eq_nil_iff]
  intro a ha
  obtain ⟨k, hk⟩ := hfound a ha
  simp [hk]

theorem directEntries_eq_nil (nodes : List Asset) (existing : Asset) (direct : List Asset)
    (hfound : ∀ a ∈ direct, ∃ k, findNode (fun node => equal node a) nodes = some k) :
    directEntries nodes existing direct = [] := by
  simp only [directEntries, List.map_eq_nil_iff, List.filter_eq_nil_iff]
  intro a ha
  obtain ⟨k, hk⟩ := hfound a ha
  simp [hk]

/-- One iteration in which every implicit and every direct connection of the node
is displayed: the frontier is untouched and one link per direct connection is added. -/
theorem stepResult_all_displayed (X : List Asset) (hX : ∀ x ∈ X, isCategory x.assetType)
    (index : Nat) (existing : Asset) (s : LoopState) (direct implicit : List Asset)
    (hreset : resetConnections s.nodes = resetConnections (tagNodes X))
    (himplicit : ∀ a ∈ implicit, ∃ m ∈ X, equal m a = true)
    (hdirect : ∀ c ∈ direct, ∃ m ∈ X, equal m c = true) :
    (stepResult index existing s (some direct) implicit).cached = s.cached ∧
      (stepResult index existing s (some direct) implicit).added = s.added ∧
      (stepResult index existing s (some direct) implicit).links
        = s.links ++ direct.map (fun c =>
            ({ source := existing.id, target := (tagNode 0 c).id, value := 1 } : Link)) ∧
      resetConnections (stepResult index existing s (some direct) implicit).nodes
        = resetConnections (tagNodes X) := by
  have hreset' : resetConnections (stepResult index existing s (some direct) implicit).nodes
      = resetConnections (tagNodes X) := by
    rw [resetConnections_stepResult, hreset]
  refine ⟨rfl, ?_, ?_, hreset'⟩
  · have h1 := implicitEntries_eq_nil s.nodes existing implicit (fun a ha => by
      obtain ⟨k, hk, _⟩ := found_of_equal X s.nodes hX hreset a (himplicit a ha)
      exact ⟨k, hk⟩)
    have h2 := directEntries_eq_nil s.nodes existing direct (fun a ha => by
      obtain ⟨k, hk, _⟩ := found_of_equal X s.nodes hX hreset a (hdirect a ha)
      exact ⟨k, hk⟩)
    simp only [stepResult, h1, h2, List.append_nil]
  · have := inGraphOf_links s.nodes existing.id
      (fun position => idAt (stepResult index existing s (some direct) implicit).nodes position)
      direct (fun c hc => by
        obtain ⟨k, hk, hid⟩ := found_of_equal X s.nodes hX hreset c (hdirect c hc)
        exact ⟨k, hk, (idAt_of_resetConnections _ _ hreset' k).trans hid⟩)
    rw [← this]
    rfl


theorem getImplicitConnections_of_catalogue (r : Repo) (assets : List Asset) (key : Nat)
    (type : String) (hall : getAllAssets r = .ok (assets.map some)) :
    ∃ result, getImplicitConnections r key type = .ok result ∧
      ∀ a ∈ result, a ∈ assets ∧ a ∈ implicitMatches a key type := by
  obtain ⟨result, hres, hmem⟩ := scanAssets_map_some key type assets []
  refine ⟨result, by simp [getImplicitConnections, hall, hres], ?_⟩
  intro a ha
  rcases (hmem a).mp ha with h | ⟨x, hx, hax⟩
  · simp at h
  · have : a = x := ((mem_implicitMatches x a key type).mp hax).1
    subst this
    exact ⟨hx, hax⟩

theorem seedInv_step (r : Repo) (cat : String) (key : Nat) (seed : Asset) (cs assets : List Asset)
    (extra : List Asset)
    (hcat : isCategory cat) (hkey : key ≠ 0)
    (hseedType : seed.assetType = cat) (hseedId : seed.categoryId = key)
    (hchildren : r.getAssetChildrenById cat key = some { children := some cs })
    (hleaf : ∀ c ∈ cs, isCategory c.assetType ∧ c.categoryId ≠ 0 ∧
      r.getAssetChildrenById c.assetType c.categoryId = some { children := some [] })
    (hall : getAllAssets r = .ok (assets.map some))
    (himpl : ∀ n ∈ seed :: cs, ∀ a ∈ assets, a ∈ implicitMatches a n.categoryId n.assetType →
      ∃ m ∈ seed :: cs, equal m a = true)
    (hextra : ∀ a ∈ extra, ∃ m ∈ seed :: cs, equal m a = true)
    (index : Nat) (existing : Asset) (s : LoopState)
    (he : (tagNodes (seed :: cs ++ extra))[index]? = some existing)
    (hs : SeedInv (seed :: cs ++ extra) seed cs index s) :
    ∃ s', createLinksStep r index existing s = .ok s' ∧
      SeedInv (seed :: cs ++ extra) seed cs (index + 1) s' := by
  have hgood : ∀ m ∈ seed :: cs, isCategory m.assetType ∧ m.categoryId ≠ 0 := by
    intro m hm
    rcases List.mem_cons.mp hm with h | h
    · subst h; exact ⟨hseedType ▸ hcat, hseedId ▸ hkey⟩
    · exact ⟨(hleaf m h).1, (hleaf m h).2.1⟩
  have hsub : ∀ m ∈ seed :: cs, m ∈ seed :: cs ++ extra := by
    intro m hm
    rcases List.mem_cons.mp hm with h | h
    · subst h; exact List.mem_cons_self _ _
    · exact List.mem_cons_of_mem _ (List.mem_append_left _ h)
  have hknown : ∀ x ∈ seed :: cs ++ extra, ∃ m ∈ seed :: cs,
      m.assetType = x.assetType ∧ m.categoryId = x.categoryId := by
    intro x hx
    rcases List.mem_cons.mp hx with h | h
    · subst h; exact ⟨x, List.mem_cons_self _ _, rfl, rfl⟩
    · rcases List.mem_append.mp h with h | h
      · exact ⟨x, List.mem_cons_of_mem _ h, rfl, rfl⟩
      · obtain ⟨m, hm, hmx⟩ := hextra x h
        exact ⟨m, hm, (equal_eq_true_iff m x (hgood m hm).1).mp hmx⟩
  have hX : ∀ x ∈ seed :: cs ++ extra, isCategory x.assetType := by
    intro x hx
    obtain ⟨m, hm, ht, _⟩ := hknown x hx
    exact ht ▸ (hgood m hm).1
  obtain ⟨hreset, hcached, hadded, hlinks, hall_links⟩ := hs
  -- the node visited
  rw [tagNodes, getElem?_tagNodesFrom] at he
  cases hx : (seed :: cs ++ extra)[index]? with
  | none => rw [hx] at he; exact Option.noConfusion he
  | some x =>
    rw [hx] at he
    simp only [Option.map_some', Option.some.injEq, Nat.zero_add] at he
    have hxmem : x ∈ seed :: cs ++ extra := List.getElem?_mem hx
    obtain ⟨m, hm, hmt, hmi⟩ := hknown x hxmem
    have het : existing.assetType = m.assetType := by rw [← he, tagNode_assetType, hmt]
    have hei : existing.categoryId = m.categoryId := by rw [← he, tagNode_categoryId, hmi]
    -- the two fetches
    obtain ⟨implicit, himplicit, himplicitMem⟩ :=
      getImplicitConnections_of_catalogue r assets m.categoryId m.assetType hall
    have hdir : directOf r existing s.direct
        = fetchChildren r m.assetType m.categoryId := by
      rw [directOf_eq_fetchChildren r existing s.direct (het ▸ (hgood m hm).1)
        (hei ▸ (hgood m hm).2), het, hei]
    have hfetch : ∃ d, fetchChildren r m.assetType m.categoryId = .ok (some d) ∧
        ((m.assetType = cat ∧ m.categoryId = key ∧ d = cs) ∨
          (d = [] ∧ (index = 0 → cs = []))) := by
      by_cases hmseed : m.assetType = cat ∧ m.categoryId = key
      · exact ⟨cs, by simp [fetchChildren, hmseed.1, hmseed.2, hchildren],
          Or.inl ⟨hmseed.1, hmseed.2, rfl⟩⟩
      · have hmcs : m ∈ cs := by
          rcases List.mem_cons.mp hm with h | h
          · subst h; exact absurd ⟨hseedType, hseedId⟩ hmseed
          · exact h
        refine ⟨[], by simp [fetchChildren, (hleaf m hmcs).2.2], Or.inr ⟨rfl, ?_⟩⟩
        intro h0
        subst h0
        simp only [List.cons_append, List.getElem?_cons_zero, Option.some.injEq] at hx
        subst hx
        exact absurd ⟨hmt.trans hseedType, hmi.trans hseedId⟩ hmseed
    obtain ⟨d, hd, hdcase⟩ := hfetch
    have hdX : ∀ c ∈ d, ∃ m' ∈ seed :: cs ++ extra, equal m' c = true := by
      intro c hc
      have hccs : c ∈ cs := by
        rcases hdcase with ⟨_, _, h⟩ | ⟨h, _⟩
        · rw [h] at hc; exact hc
        · rw [h] at hc; simp at hc
      exact ⟨c, List.mem_cons_of_mem _ (List.mem_append_left _ hccs),
        equal_self c (hleaf c hccs).1⟩
    have himplX : ∀ a ∈ implicit, ∃ m' ∈ seed :: cs ++ extra, equal m' a = true := by
      intro a ha
      obtain ⟨haa, hmatch⟩ := himplicitMem a ha
      obtain ⟨m', hm', hm'a⟩ := himpl m hm a haa hmatch
      exact ⟨m', hsub m' hm', hm'a⟩
    obtain ⟨h1, h2, h3, h4⟩ := stepResult_all_displayed (seed :: cs ++ extra) hX index existing s
      d implicit hreset himplX hdX
    refine ⟨stepResult index existing s (some d) implicit, ?_, h4, by rw [h1, hcached],
      by rw [h2, hadded], ?_, ?_⟩
    · rw [createLinksStep_eq, hdir, hd, hei, het, himplicit]
    · intro l hl
      rw [h3] at hl
      rcases List.mem_append.mp hl with hl | hl
      · exact hlinks l hl
      · obtain ⟨c, hc, hcl⟩ := List.mem_map.mp hl
        rcases hdcase with ⟨ht, hi, hdcs⟩ | ⟨hnil, _⟩
        · have hid : existing.id = (tagNode 0 seed).id := by
            rw [← he, tagNode_id]
            exact tagNode_id_congr x seed (hX x hxmem)
              (hmt.symm.trans (ht.trans hseedType.symm)) (hmi.symm.trans (hi.trans hseedId.symm))
          exact ⟨c, hdcs ▸ hc, by rw [← hcl, hid]⟩
        · rw [hnil] at hc; simp at hc
    · intro _ c hc
      rw [h3]
      rcases hdcase with ⟨ht, hi, hdcs⟩ | ⟨_, h0⟩
      · have hid : existing.id = (tagNode 0 seed).id := by
          rw [← he, tagNode_id]
          exact tagNode_id_congr x seed (hX x hxmem)
            (hmt.symm.trans (ht.trans hseedType.symm)) (hmi.symm.trans (hi.trans hseedId.symm))
        apply List.mem_append_right
        rw [hdcs, hid]
        exact List.mem_map.mpr ⟨c, hc, rfl⟩
      · apply List.mem_append_left
        by_cases hidx : index = 0
        · rw [h0 hidx] at hc; simp at hc
        · exact hall_links (Nat.pos_of_ne_zero hidx) c hc


/-- C7. Let the selected asset `seed` (category `cat`, non-zero id `key`) have the
direct children `cs`, let every child be an asset with a non-zero id and no direct
children, and let every catalogue asset that lists the seed or a child in its
connections field equal the seed or a child. Then initData, started with an empty
frontier, succeeds; its nodes are, in asset data and derived id, the seed, then the
children, then assets equal to one of these; its links are exactly the links from
the seed to each child; and the frontier is empty. -/
theorem initData_seed_with_leaf_children (r : Repo) (st : GraphState) (cat : String) (key : Nat)
    (seed : Asset) (cs assets : List Asset)
    (hcat : isCategory cat) (hkey : key ≠ 0)
    (hseed : r.getAssetById cat key = some seed)
    (hseedType : seed.assetType = cat) (hseedId : seed.categoryId = key)
    (hchildren : r.getAssetChildrenById cat key = some { children := some cs })
    (hleaf : ∀ c ∈ cs, isCategory c.assetType ∧ c.categoryId ≠ 0 ∧
      r.getAssetChildrenById c.assetType c.categoryId = some { children := some [] })
    (hall : getAllAssets r = .ok (assets.map some))
    (himpl : ∀ n ∈ seed :: cs, ∀ a ∈ assets, a ∈ implicitMatches a n.categoryId n.assetType →
      ∃ m ∈ seed :: cs, equal m a = true)
    (hempty : st.undisplayed = []) :
    ∃ st' extra, initData r st cat key = .ok st' ∧
      st'.nodes.map identityOf = (tagNodes (seed :: cs ++ extra)).map identityOf ∧
      (∀ a ∈ extra, ∃ m ∈ seed :: cs, equal m a = true) ∧
      (∀ l, l ∈ st'.links ↔ ∃ c ∈ cs,
        l = { source := (tagNode 0 seed).id, target := (tagNode 0 c).id, value := 1 }) ∧
      st'.undisplayed = [] := by
  obtain ⟨extra, hextra, hextraMem⟩ :=
    getImplicitConnections_of_catalogue r assets key cat hall
  have hextra' : ∀ a ∈ extra, ∃ m ∈ seed :: cs, equal m a = true := by
    intro a ha
    obtain ⟨haa, hmatch⟩ := hextraMem a ha
    exact himpl seed (List.mem_cons_self _ _) a haa (by rw [hseedId, hseedType]; exact hmatch)
  have hnodes : initNodes r cat key = .ok (tagNodes (seed :: cs ++ extra)) := by
    have hlist : (r.getAssetById cat key :: concatArg (some cs)) ++ extra.map some
        = (seed :: cs ++ extra).map some := by
      simp [hseed, concatArg]
    simp only [initNodes, hcat, if_true, hchildren, hextra, hlist, definedNodes_map_some]
  obtain ⟨s, hloop, hinv⟩ := createLinksLoop_total r (tagNodes (seed :: cs ++ extra))
    (SeedInv (seed :: cs ++ extra) seed cs)
    (fun index existing s he hs =>
      seedInv_step r cat key seed cs assets extra hcat hkey hseedType hseedId hchildren hleaf
        hall himpl hextra' index existing s he hs)
    (tagNodes (seed :: cs ++ extra)) []
    { direct := none, inGraph := [], cached := st.undisplayed, added := [], links := [],
      nodes := tagNodes (seed :: cs ++ extra) } rfl
    ⟨rfl, hempty, rfl, by simp, by simp⟩
  obtain ⟨hreset, hcached, hadded, hlinks, hall_links⟩ := hinv
  have hpos : 0 < (tagNodes (seed :: cs ++ extra)).length := by
    simp [tagNodes, tagNodesFrom]
  refine ⟨{ st with undisplayed := s.cached ++ s.added, nodes := s.nodes, links := s.links },
    extra, ?_, ?_, hextra', ?_, ?_⟩
  · simp only [List.length_nil] at hloop
    simp only [initData, hnodes, createLinks, hloop]
  · exact map_identityOf_of_resetConnections _ _ hreset
  · intro l
    constructor
    · exact hlinks l
    · rintro ⟨c, hc, rfl⟩
      exact hall_links hpos c hc
  · simp [hcached, hadded]

/-- C7, at the catalogue of `seedRepo`: application 5 with the children 6 and 7, where
6 lists 5 in its connections field. The nodes are 5, 6, 7 and a second copy of 6, the
links are (5, 6) and (5, 7), the frontier is empty. The last part is the same
catalogue with 5 listed twice by application 6 (`doubleListRepo`). -/
theorem initData_seed_with_leaf_children_witness :
    isCategory "Application" ∧ (5 : Nat) ≠ 0 ∧
      seedRepo.getAssetById "Application" 5 = some (app 5 []) ∧
      seedRepo.getAssetChildrenById "Application" 5
        = some { children := some [app 6 [("Application", "5")], app 7 []] } ∧
      (∀ c ∈ [app 6 [("Application", "5")], app 7 []],
        isCategory c.assetType ∧ c.categoryId ≠ 0 ∧
          seedRepo.getAssetChildrenById c.assetType c.categoryId
            = some { children := some [] }) ∧
      getAllAssets seedRepo
        = .ok ([app 5 [], app 6 [("Application", "5")], app 7 []].map some) ∧
      (∀ n ∈ app 5 [] :: [app 6 [("Application", "5")], app 7 []],
        ∀ a ∈ [app 5 [], app 6 [("Application", "5")], app 7 []],
          a ∈ implicitMatches a n.categoryId n.assetType →
            ∃ m ∈ app 5 [] :: [app 6 [("Application", "5")], app 7 []], equal m a = true) ∧
      (∃ st' extra, initData seedRepo GraphState.initial "Application" 5 = .ok st' ∧
        st'.nodes.map identityOf
          = (tagNodes (app 5 [] :: [app 6 [("Application", "5")], app 7 []] ++ extra)).map
              identityOf ∧
        (∀ a ∈ extra,
          ∃ m ∈ app 5 [] :: [app 6 [("Application", "5")], app 7 []], equal m a = true) ∧
        (∀ l, l ∈ st'.links ↔ ∃ c ∈ [app 6 [("Application", "5")], app 7 []],
          l = { source := (tagNode 0 (app 5 [])).id, target := (tagNode 0 c).id, value := 1 }) ∧
        st'.undisplayed = []) ∧
      componentWillReceiveProps seedRepo GraphState.initial (some "Application") (some 5)
        = .ok { selectedCategory := some "Application", selectedAssetKey := some 5,
                nodes :=
                  [addConnections (tagNode 0 (app 5 [])) 2,
                   addConnections (tagNode 1 (app 6 [("Application", "5")])) 1,
                   addConnections (tagNode 2 (app 7 [])) 1,
                   tagNode 3 (app 6 [("Application", "5")])],
                links :=
                  [{ source := some "A-5", target := some "A-6", value := 1 },
                   { source := some "A-5", target := some "A-7", value := 1 }],
                undisplayed := [] } ∧
      (∃ st' extra, initData doubleListRepo GraphState.initial "Application" 5 = .ok st' ∧
        st'.nodes.map identityOf
          = (tagNodes (app 5 [] :: [app 6 [("Application", "5;5")], app 7 []] ++ extra)).map
              identityOf ∧
        (∀ a ∈ extra,
          ∃ m ∈ app 5 [] :: [app 6 [("Application", "5;5")], app 7 []], equal m a = true) ∧
        (∀ l, l ∈ st'.links ↔ ∃ c ∈ [app 6 [("Application", "5;5")], app 7 []],
          l = { source := (tagNode 0 (app 5 [])).id, target := (tagNode 0 c).id, value := 1 }) ∧
        st'.undisplayed = []) :=
  ⟨by decide, by decide, rfl, rfl, by decide, rfl, by decide,
    initData_seed_with_leaf_children seedRepo GraphState.initial "Application" 5 (app 5 [])
      [app 6 [("Application", "5")], app 7 []]
      [app 5 [], app 6 [("Application", "5")], app 7 []]
      (by decide) (by decide) rfl rfl rfl rfl (by decide) rfl (by decide) rfl,
    rfl,
    initData_seed_with_leaf_children doubleListRepo GraphState.initial "Application" 5
      (app 5 []) [app 6 [("Application", "5;5")], app 7 []]
      [app 5 [], app 6 [("Application", "5;5")], app 7 []]
      (by decide) (by decide) rfl rfl rfl rfl (by decide) rfl (by decide) rfl⟩

/-! ## The decorations tagNodes writes -/


theorem length_tagNodesFrom (nodes : List Asset) :
    ∀ start, (tagNodesFrom start nodes).length = nodes.length := by
  induction nodes with
  | nil => intro start; rfl
  | cons node rest ih => intro start; simp [tagNodesFrom, ih]

theorem tagNode_eq (index : Nat) (x : Asset) :
    tagNode index x =
      { x with
        connections := some 0
        group := some (index + 1)
        id := match categoryLetter x.assetType with
          | some letter => some (letter ++ "-" ++ toString x.categoryId)
          | none => x.id } := by
  simp only [tagNode, categoryLetter]
  split_ifs <;> rfl

/-- The list function `tagNodes` keeps the length and the order of the list, and the
node at position `i` is the asset at position `i` with `connections` 0, `group`
`i + 1` and, when its category is one of the six, the id `"<letter>-<categoryId>"`;
the id is left as it was for any other category, and no other field changes. It is
what the method does to an array of pairwise distinct objects
(`readArray_tagNodesInPlace`). -/
theorem tagNodes_sets_decorations (assets : List Asset) :
    (tagNodes assets).length = assets.length ∧
      ∀ (i : Nat) (x : Asset), assets[i]? = some x →
        (tagNodes assets)[i]? = some
          { x with
            connections := some 0
            group := some (i + 1)
            id := match categoryLetter x.assetType with
              | some letter => some (letter ++ "-" ++ toString x.categoryId)
              | none => x.id } := by
  refine ⟨length_tagNodesFrom assets 0, ?_⟩
  intro i x hx
  rw [tagNodes, getElem?_tagNodesFrom, hx, Option.map_some', Nat.zero_add, tagNode_eq]

theorem getElem?_writeObject (f : Asset → Asset) (heap : List Asset) :
    ∀ (ref p : Nat),
      (writeObject f heap ref)[p]? = if p = ref then heap[p]?.map f else heap[p]? := by
  induction heap with
  | nil => intro ref p; simp [writeObject]
  | cons object rest ih =>
    intro ref p
    cases ref with
    | zero =>
      cases p with
      | zero => simp [writeObject]
      | succ p => simp [writeObject]
    | succ ref =>
      cases p with
      | zero => simp [writeObject]
      | succ p => simp [writeObject, ih]

theorem length_writeObject (f : Asset → Asset) (heap : List Asset) :
    ∀ ref, (writeObject f heap ref).length = heap.length := by
  induction heap with
  | nil => intro ref; rfl
  | cons object rest ih =>
    intro ref
    cases ref with
    | zero => rfl
    | succ ref => simp [writeObject, ih]

theorem length_tagNodesInPlaceFrom (nodes : List Nat) :
    ∀ (start : Nat) (heap : List Asset),
      (tagNodesInPlaceFrom start nodes heap).length = heap.length := by
  induction nodes with
  | nil => intro start heap; rfl
  | cons ref rest ih =>
    intro start heap
    rw [tagNodesInPlaceFrom, ih, length_writeObject]

/-- A second tagging overwrites the first. -/
theorem tagNode_tagNode (i j : Nat) (x : Asset) : tagNode j (tagNode i x) = tagNode j x := by
  rw [tagNode_eq j (tagNode i x), tagNode_eq j x, tagNode_eq i x]
  cases categoryLetter x.assetType <;> rfl

theorem tagNodesInPlaceFrom_not_mem (nodes : List Nat) :
    ∀ (start : Nat) (heap : List Asset) (p : Nat), p ∉ nodes →
      (tagNodesInPlaceFrom start nodes heap)[p]? = heap[p]? := by
  induction nodes with
  | nil => intro start heap p _; rfl
  | cons ref rest ih =>
    intro start heap p hp
    simp only [List.mem_cons, not_or] at hp
    rw [tagNodesInPlaceFrom, ih _ _ p hp.2, getElem?_writeObject, if_neg hp.1]

/-- The object at the last position of the array that refers to it ends with the
decorations of that position. -/
theorem tagNodesInPlaceFrom_last (nodes : List Nat) :
    ∀ (start : Nat) (heap : List Asset) (i p : Nat) (x : Asset),
      nodes[i]? = some p → heap[p]? = some x → (∀ j, i < j → nodes[j]? ≠ some p) →
      (tagNodesInPlaceFrom start nodes heap)[p]? = some (tagNode (start + i) x) := by
  induction nodes with
  | nil => intro start heap i p x hi; simp at hi
  | cons ref rest ih =>
    intro start heap i p x hi hx hlast
    rw [tagNodesInPlaceFrom]
    cases i with
    | zero =>
      simp only [List.getElem?_cons_zero, Option.some.injEq] at hi
      subst hi
      have hnot : ref ∉ rest := by
        intro hmem
        obtain ⟨j, hj, hjp⟩ := List.getElem_of_mem hmem
        have := hlast (j + 1) (Nat.succ_pos j)
        simp only [List.getElem?_cons_succ] at this
        exact this (by rw [List.getElem?_eq_getElem hj, hjp])
      rw [tagNodesInPlaceFrom_not_mem rest _ _ ref hnot, getElem?_writeObject, if_pos rfl, hx]
      rfl
    | succ i =>
      simp only [List.getElem?_cons_succ] at hi
      have hlast' : ∀ j, i < j → rest[j]? ≠ some p := by
        intro j hj
        have := hlast (j + 1) (Nat.succ_lt_succ hj)
        simpa using this
      by_cases hpr : p = ref
      · have h1 : (writeObject (tagNode start) heap ref)[p]? = some (tagNode start x) := by
          rw [getElem?_writeObject, if_pos hpr, hx]; rfl
        rw [ih (start + 1) _ i p (tagNode start x) hi h1 hlast', tagNode_tagNode]
        congr 2; omega
      · have h1 : (writeObject (tagNode start) heap ref)[p]? = some x := by
          rw [getElem?_writeObject, if_neg hpr, hx]
        rw [ih (start + 1) _ i p x hi h1 hlast']
        congr 2; omega

theorem not_mem_drop_iff (nodes : List Nat) (i p : Nat) :
    p ∉ nodes.drop (i + 1) ↔ ∀ j, i < j → nodes[j]? ≠ some p := by
  constructor
  · intro h j hj hjp
    apply h
    have : (nodes.drop (i + 1))[j - (i + 1)]? = some p := by
      rw [List.getElem?_drop, ← hjp]
      congr 1; omega
    exact List.getElem?_mem this
  · intro h hmem
    obtain ⟨k, hk, hkp⟩ := List.getElem_of_mem hmem
    have : (nodes.drop (i + 1))[k]? = some p := by rw [List.getElem?_eq_getElem hk, hkp]
    rw [List.getElem?_drop] at this
    exact h (i + 1 + k) (by omega) this

/-- Every object of the array has a last position in it. -/
theorem exists_last_position (nodes : List Nat) (p : Nat) :
    ∀ (n i : Nat), nodes.length ≤ i + n → nodes[i]? = some p →
      ∃ j, i ≤ j ∧ nodes[j]? = some p ∧ p ∉ nodes.drop (j + 1) := by
  intro n
  induction n with
  | zero =>
    intro i hn hi
    rw [List.getElem?_eq_none (by omega)] at hi
    cases hi
  | succ n ih =>
    intro i hn hi
    by_cases hlater : p ∈ nodes.drop (i + 1)
    · obtain ⟨k, hk, hkp⟩ := List.getElem_of_mem hlater
      have hnext : nodes[i + 1 + k]? = some p := by
        rw [← List.getElem?_drop, List.getElem?_eq_getElem hk, hkp]
      obtain ⟨j, hj, hjp, hlast⟩ := ih (i + 1 + k) (by omega) hnext
      exact ⟨j, by omega, hjp, hlast⟩
    · exact ⟨i, Nat.le_refl i, hi, hlater⟩

/-- C12, as amended. With the objects on a heap and the array a list of addresses:
for the object `p` at position `i` of the array, with the value `x` before the call,
tagNodes leaves `p` with `connections` 0, with `group` `j + 1` where `j` is the last
position of the array that holds `p` (so `i + 1` when no later position holds it,
as in every array of pairwise distinct objects), and, when its category is one of
the six, with the id `"<letter>-<categoryId>"`; the id is left as it was for any
other category and no other field changes. The heap keeps its size, and an object the
array does not hold is unchanged. -/
theorem tagNodesInPlace_sets_decorations (heap : List Asset) (nodes : List Nat) (i p : Nat)
    (x : Asset) (hi : nodes[i]? = some p) (hx : heap[p]? = some x) :
    ∃ j, i ≤ j ∧ nodes[j]? = some p ∧ p ∉ nodes.drop (j + 1) ∧
      (p ∉ nodes.drop (i + 1) → j = i) ∧
      (tagNodesInPlace heap nodes)[p]? = some
        { x with
          connections := some 0
          group := some (j + 1)
          id := match categoryLetter x.assetType with
            | some letter => some (letter ++ "-" ++ toString x.categoryId)
            | none => x.id } ∧
      (tagNodesInPlace heap nodes).length = heap.length ∧
      ∀ q, q ∉ nodes → (tagNodesInPlace heap nodes)[q]? = heap[q]? := by
  obtain ⟨j, hj, hjp, hlast⟩ := exists_last_position nodes p nodes.length i (by omega) hi
  refine ⟨j, hj, hjp, hlast, ?_, ?_, length_tagNodesInPlaceFrom nodes 0 heap, fun q hq =>
    tagNodesInPlaceFrom_not_mem nodes 0 heap q hq⟩
  · intro hnone
    by_contra hne
    exact (not_mem_drop_iff nodes i p).mp hnone j (by omega) hjp
  · rw [tagNodesInPlace, tagNodesInPlaceFrom_last nodes 0 heap j p x hjp hx
      ((not_mem_drop_iff nodes j p).mp hlast), Nat.zero_add, tagNode_eq]

/-- C12 as amended, at the array `[0, 1, 0]` over the heap of applications 5 and 6:
position 0 holds the object that position 2 holds too, and it ends with `group` 3;
the object of position 1 ends with `group` 2. -/
theorem tagNodesInPlace_sets_decorations_witness :
    ([0, 1, 0] : List Nat)[0]? = some 0 ∧
      ([app 5 [], app 6 []] : List Asset)[0]? = some (app 5 []) ∧
      tagNodesInPlace [app 5 [], app 6 []] [0, 1, 0]
        = [{ app 5 [] with connections := some 0, group := some 3, id := some "A-5" },
           { app 6 [] with connections := some 0, group := some 2, id := some "A-6" }] ∧
      ∃ j, 0 ≤ j ∧ ([0, 1, 0] : List Nat)[j]? = some 0 ∧ 0 ∉ ([0, 1, 0] : List Nat).drop (j + 1) ∧
        (0 ∉ ([0, 1, 0] : List Nat).drop (0 + 1) → j = 0) ∧
        (tagNodesInPlace [app 5 [], app 6 []] [0, 1, 0])[0]? = some
          { app 5 [] with
            connections := some 0
            group := some (j + 1)
            id := match categoryLetter (app 5 []).assetType with
              | some letter => some (letter ++ "-" ++ toString (app 5 []).categoryId)
              | none => (app 5 []).id } ∧
        (tagNodesInPlace [app 5 [], app 6 []] [0, 1, 0]).length
          = ([app 5 [], app 6 []] : List Asset).length ∧
        ∀ q, q ∉ ([0, 1, 0] : List Nat) →
          (tagNodesInPlace [app 5 [], app 6 []] [0, 1, 0])[q]?
            = ([app 5 [], app 6 []] : List Asset)[q]? :=
  ⟨rfl, rfl, rfl,
    tagNodesInPlace_sets_decorations [app 5 [], app 6 []] [0, 1, 0] 0 0 (app 5 []) rfl rfl⟩

/-- An array of pairwise distinct objects reads, after tagNodes, as the list function
`tagNodes` says. -/
theorem readArray_tagNodesInPlace (heap : List Asset) (nodes : List Nat) (values : List Asset)
    (hdistinct : nodes.Nodup) (hvalues : readArray heap nodes = values.map some) :
    readArray (tagNodesInPlace heap nodes) nodes = (tagNodes values).map some := by
  apply List.ext_getElem?
  intro i
  have hv := congrArg (fun l => l[i]?) hvalues
  simp only [readArray, List.getElem?_map, List.get?_eq_getElem?] at hv ⊢
  rw [tagNodes, getElem?_tagNodesFrom, Nat.zero_add]
  cases hp : nodes[i]? with
  | none =>
    rw [hp] at hv
    cases hxi : values[i]? with
    | none => simp
    | some x => rw [hxi] at hv; simp at hv
  | some p =>
    rw [hp] at hv
    cases hxi : values[i]? with
    | none => rw [hxi] at hv; simp at hv
    | some x =>
      rw [hxi] at hv
      simp only [Option.map_some', Option.some.injEq] at hv ⊢
      have hlast : ∀ j, i < j → nodes[j]? ≠ some p := by
        intro j hj hjp
        obtain ⟨hj1, hj2⟩ := List.getElem?_eq_some.mp hjp
        obtain ⟨hi1, hi2⟩ := List.getElem?_eq_some.mp hp
        have := (List.Nodup.getElem_inj_iff hdistinct).mp (hj2.trans hi2.symm)
        omega
      rw [tagNodesInPlace, tagNodesInPlaceFrom_last nodes 0 heap i p x hp hv hlast, Nat.zero_add]

/-- The array of applications 5, 6 and 7 as three objects reads, after tagNodes, as the
list function says. -/
theorem readArray_tagNodesInPlace_example :
    ([0, 1, 2] : List Nat).Nodup ∧
      readArray [app 5 [], app 6 [], app 7 []] [0, 1, 2]
        = ([app 5 [], app 6 [], app 7 []] : List Asset).map some ∧
      readArray (tagNodesInPlace [app 5 [], app 6 [], app 7 []] [0, 1, 2]) [0, 1, 2]
        = (tagNodes [app 5 [], app 6 [], app 7 []]).map some :=
  ⟨by decide, rfl,
    readArray_tagNodesInPlace [app 5 [], app 6 [], app 7 []] [0, 1, 2]
      [app 5 [], app 6 [], app 7 []] (by decide) rfl⟩

/-- C15. For two assets of a list whose categories are among the six, the ids
`tagNodes` gives them are the same exactly when the assets are equal under `equal`. -/
theorem derived_id_eq_iff_equal (assets : List Asset) (i j : Nat) (a b : Asset)
    (hi : assets[i]? = some a) (hj : assets[j]? = some b)
    (ha : isCategory a.assetType) (hb : isCategory b.assetType) :
    ∃ x y, (tagNodes assets)[i]? = some x ∧ (tagNodes assets)[j]? = some y ∧
      (x.id = y.id ↔ equal a b = true) := by
  refine ⟨tagNode i a, tagNode j b, ?_, ?_, ?_⟩
  · rw [tagNodes, getElem?_tagNodesFrom, hi, Option.map_some', Nat.zero_add]
  · rw [tagNodes, getElem?_tagNodesFrom, hj, Option.map_some', Nat.zero_add]
  · rw [tagNode_id i a, tagNode_id j b, equal_eq_true_iff a b ha]
    constructor
    · exact derivedId_injective a b ha hb
    · rintro ⟨ht, hc⟩
      exact tagNode_id_congr a b ha ht hc

/-- C15, at the list of applications 5, 6 and 5 again: positions 0 and 2 get the same
id and are equal, positions 0 and 1 get different ids and are not equal. -/
theorem derived_id_eq_iff_equal_witness :
    ([app 5 [], app 6 [], app 5 [("Data", "3")]] : List Asset)[0]? = some (app 5 []) ∧
      ([app 5 [], app 6 [], app 5 [("Data", "3")]] : List Asset)[2]?
        = some (app 5 [("Data", "3")]) ∧
      isCategory (app 5 []).assetType ∧ isCategory (app 5 [("Data", "3")]).assetType ∧
      (∃ x y, (tagNodes [app 5 [], app 6 [], app 5 [("Data", "3")]])[0]? = some x ∧
        (tagNodes [app 5 [], app 6 [], app 5 [("Data", "3")]])[2]? = some y ∧
        (x.id = y.id ↔ equal (app 5 []) (app 5 [("Data", "3")]) = true)) ∧
      (tagNodes [app 5 [], app 6 [], app 5 [("Data", "3")]]).map (fun node => node.id)
        = [some "A-5", some "A-6", some "A-5"] ∧
      equal (app 5 []) (app 5 [("Data", "3")]) = true ∧ equal (app 5 []) (app 6 []) = false :=
  ⟨rfl, rfl, by decide, by decide,
    derived_id_eq_iff_equal [app 5 [], app 6 [], app 5 [("Data", "3")]] 0 2 _ _ rfl rfl
      (by decide) (by decide),
    rfl, rfl, rfl⟩

/-! ## Links join displayed nodes -/


theorem idAt_mem (nodes : List Asset) (p : Nat) (hp : p < nodes.length) :
    ∃ n ∈ nodes, idAt nodes p = n.id := by
  refine ⟨nodes[p], List.getElem_mem _, ?_⟩
  simp [idAt, List.getElem?_eq_getElem hp]

theorem stepResult_inGraph_lt (nodes : List Asset) (index : Nat) (existing : Asset)
    (s : LoopState) (direct : Option (List Asset)) (implicit : List Asset)
    (hreset : resetConnections s.nodes = resetConnections nodes)
    (hin : ∀ p ∈ s.inGraph, p < nodes.length) :
    ∀ p ∈ (stepResult index existing s direct implicit).inGraph, p < nodes.length := by
  intro p hp
  cases direct with
  | none => exact hin p hp
  | some d =>
    have := mem_inGraphOf_lt s.nodes d p hp
    have hlen := length_eq_of_resetConnections _ _ hreset
    omega

/-- C11. Every link a call of createLinks returns has as source the id of a node of
the list it was given and as target the id of a node of that list. -/
theorem links_between_displayed_nodes (r : Repo) (st : GraphState) (nodes : List Asset)
    (links : List Link) (nodes' : List Asset) (st' : GraphState)
    (hrun : createLinks r st nodes = .ok (links, nodes', st')) :
    ∀ link ∈ links, (∃ n ∈ nodes, link.source = n.id) ∧ (∃ n ∈ nodes, link.target = n.id) := by
  unfold createLinks at hrun
  cases hloop : createLinksLoop r 0 nodes
      { direct := none, inGraph := [], cached := st.undisplayed, added := [], links := [],
        nodes := nodes } with
  | error e => simp [hloop] at hrun
  | ok s =>
    simp only [hloop, Except.ok.injEq, Prod.mk.injEq] at hrun
    obtain ⟨hl, _, _⟩ := hrun
    subst hl
    have hfinal := createLinksLoop_invariant r nodes
      (fun s => resetConnections s.nodes = resetConnections nodes ∧
        (∀ p ∈ s.inGraph, p < nodes.length) ∧
        ∀ link ∈ s.links, (∃ n ∈ nodes, link.source = n.id) ∧ (∃ n ∈ nodes, link.target = n.id))
      ?_ nodes [] _ s rfl ⟨rfl, by simp, by simp⟩ hloop
    · exact hfinal.2.2
    · intro index existing s1 s2 he hP hstep
      obtain ⟨hreset, hin, hlinks⟩ := hP
      rw [createLinksStep_eq] at hstep
      cases hdir : directOf r existing s1.direct with
      | error e => simp [hdir] at hstep
      | ok direct =>
        cases himp : getImplicitConnections r existing.categoryId existing.assetType with
        | error e => simp [hdir, himp] at hstep
        | ok implicit =>
          simp only [hdir, himp, Except.ok.injEq] at hstep
          subst hstep
          have hreset' : resetConnections (stepResult index existing s1 direct implicit).nodes
              = resetConnections nodes := by
            rw [resetConnections_stepResult, hreset]
          have hin' := stepResult_inGraph_lt nodes index existing s1 direct implicit hreset hin
          refine ⟨hreset', hin', ?_⟩
          intro link hlink
          rw [stepResult_links] at hlink
          rcases List.mem_append.mp hlink with h | h
          · exact hlinks link h
          · obtain ⟨p, hp, rfl⟩ := List.mem_map.mp h
            refine ⟨⟨existing, List.getElem?_mem he, rfl⟩, ?_⟩
            have := idAt_mem nodes p (hin' p hp)
            rw [← idAt_of_resetConnections _ _ hreset' p] at this
            exact this

/-- C11, at the list `[A, B, C]` where A has the direct children B and C. -/
theorem links_between_displayed_nodes_witness :
    createLinks fanRepo GraphState.initial fanNodes
        = .ok ([{ source := some "A-1", target := some "A-2", value := 1 },
                { source := some "A-1", target := some "A-3", value := 1 }],
               [addConnections (tagNode 0 (app 1 [])) 2, addConnections (tagNode 1 (app 2 [])) 1,
                addConnections (tagNode 2 (app 3 [])) 1], GraphState.initial) ∧
      ∀ link ∈ ([{ source := some "A-1", target := some "A-2", value := 1 },
                 { source := some "A-1", target := some "A-3", value := 1 }] : List Link),
        (∃ n ∈ fanNodes, link.source = n.id) ∧ (∃ n ∈ fanNodes, link.target = n.id) :=
  ⟨rfl, links_between_displayed_nodes fanRepo GraphState.initial fanNodes _ _ _ rfl⟩

/-! ## The frontier holds undisplayed assets only -/


theorem equal_eq_true_iff_isCategory (a b : Asset) :
    equal a b = true ↔
      isCategory a.assetType ∧ a.assetType = b.assetType ∧ a.categoryId = b.categoryId := by
  by_cases ha : isCategory a.assetType
  · rw [equal_eq_true_iff a b ha]
    exact ⟨fun h => ⟨ha, h⟩, fun h => h.2⟩
  · have hf : equal a b = false := by
      simp only [isCategory, not_or] at ha
      simp [equal, equalProps, ha]
    simp [hf, ha]

theorem equal_comm (a b : Asset) : equal a b = equal b a := by
  rw [Bool.eq_iff_iff, equal_eq_true_iff_isCategory, equal_eq_true_iff_isCategory]
  constructor
  · rintro ⟨hc, ht, hi⟩
    exact ⟨ht ▸ hc, ht.symm, hi.symm⟩
  · rintro ⟨hc, ht, hi⟩
    exact ⟨ht ▸ hc, ht.symm, hi.symm⟩

theorem findNode_eq_none_iff (p : Asset → Bool) (nodes : List Asset) :
    findNode p nodes = none ↔ ∀ x ∈ nodes, p x = false := by
  induction nodes with
  | nil => simp [findNode]
  | cons node rest ih =>
    simp only [findNode, List.mem_cons, forall_eq_or_imp]
    by_cases hp : p node = true
    · simp [hp]
    · simp only [Bool.not_eq_true] at hp
      simp [hp, ih]

theorem mem_implicitEntries (nodes : List Asset) (existing : Asset) (implicit : List Asset)
    (e : Entry) (h : e ∈ implicitEntries nodes existing implicit) :
    findNode (fun node => equal node e.target) nodes = none := by
  simp only [implicitEntries, List.mem_map, List.mem_filter] at h
  obtain ⟨a, ⟨_, ha⟩, rfl⟩ := h
  simpa using ha

theorem mem_directEntries (nodes : List Asset) (existing : Asset) (direct : List Asset)
    (e : Entry) (h : e ∈ directEntries nodes existing direct) :
    findNode (fun node => equal node e.target) nodes = none := by
  simp only [directEntries, List.mem_map, List.mem_filter] at h
  obtain ⟨a, ⟨_, ha⟩, rfl⟩ := h
  simpa using ha

/-- The frontier createLinks leaves is the frontier it started from followed by new
entries, and no new entry targets an asset that equals one of the nodes. -/
theorem createLinks_adds_undisplayed_only (r : Repo) (st : GraphState) (nodes : List Asset)
    (links : List Link) (nodes' : List Asset) (st' : GraphState)
    (h : createLinks r st nodes = .ok (links, nodes', st')) :
    ∃ added, st'.undisplayed = st.undisplayed ++ added ∧
      ∀ e ∈ added, findNode (fun node => equal node e.target) nodes = none := by
  unfold createLinks at h
  cases hloop : createLinksLoop r 0 nodes
      { direct := none, inGraph := [], cached := st.undisplayed, added := [], links := [],
        nodes := nodes } with
  | error e => simp [hloop] at h
  | ok s =>
    simp only [hloop, Except.ok.injEq, Prod.mk.injEq] at h
    obtain ⟨_, _, hst⟩ := h
    have hfinal := createLinksLoop_invariant r nodes
      (fun s => resetConnections s.nodes = resetConnections nodes ∧
        s.cached = st.undisplayed ∧
        ∀ e ∈ s.added, findNode (fun node => equal node e.target) nodes = none)
      ?_ nodes [] _ s rfl ⟨rfl, rfl, by simp⟩ hloop
    · exact ⟨s.added, by rw [← hst, hfinal.2.1], hfinal.2.2⟩
    · intro index existing s1 s2 _ hP hstep
      obtain ⟨hreset, hcached, hadded⟩ := hP
      rw [createLinksStep_eq] at hstep
      cases hdir : directOf r existing s1.direct with
      | error e => simp [hdir] at hstep
      | ok direct =>
        cases himp : getImplicitConnections r existing.categoryId existing.assetType with
        | error e => simp [hdir, himp] at hstep
        | ok implicit =>
          simp only [hdir, himp, Except.ok.injEq] at hstep
          subst hstep
          refine ⟨by rw [resetConnections_stepResult, hreset], hcached, ?_⟩
          intro e he
          simp only [stepResult, List.mem_append] at he
          rcases he with (he | he) | he
          · exact hadded e he
          · rw [← findNode_congr_reset e.target s1.nodes nodes hreset]
            exact mem_implicitEntries _ _ _ e he
          · cases direct with
            | none => simp at he
            | some d =>
              rw [← findNode_congr_reset e.target s1.nodes nodes hreset]
              exact mem_directEntries _ _ _ e he

/-- A graph built by initData from an empty frontier has no frontier entry whose
target equals a displayed node. -/
theorem initData_frontier_undrawn (r : Repo) (st : GraphState) (cat : String) (key : Nat)
    (st' : GraphState) (hempty : st.undisplayed = [])
    (h : initData r st cat key = .ok st') :
    ∀ e ∈ st'.undisplayed, ∀ n ∈ st'.nodes, equal n e.target = false := by
  unfold initData at h
  cases hnodes : initNodes r cat key with
  | error e => simp [hnodes] at h
  | ok nodes =>
    simp only [hnodes] at h
    cases hlinks : createLinks r st nodes with
    | error e => simp [hlinks] at h
    | ok res =>
      obtain ⟨links, nodes', st1⟩ := res
      simp only [hlinks, Except.ok.injEq] at h
      subst h
      obtain ⟨added, hU, hadded⟩ := createLinks_adds_undisplayed_only r st nodes links nodes' st1
        hlinks
      have hreset := resetConnections_createLinks r st nodes links nodes' st1 hlinks
      intro e he
      have he' : e ∈ added := by
        have : e ∈ st1.undisplayed := he
        rw [hU, hempty] at this
        simpa using this
      have h1 := hadded e he'
      rw [← findNode_congr_reset e.target nodes' nodes hreset] at h1
      exact (findNode_eq_none_iff _ _).mp h1

/-- Expanding a node keeps a frontier of undrawn targets. If no frontier entry targets
an asset equal to a displayed node, then after a call of expandAsset that returns:
the displayed nodes are, in asset data and derived id, the old nodes followed by the
promoted assets (none when the node is the selected one, else the tagged targets of
the entries selected by the node's id), no frontier entry targets an asset equal to a
displayed node, and no frontier entry targets an asset equal to a promoted one. -/
theorem expandAsset_keeps_frontier_undrawn (r : Repo) (st : GraphState) (node : Asset)
    (st' : GraphState)
    (hinv : ∀ e ∈ st.undisplayed, ∀ n ∈ st.nodes, equal n e.target = false)
    (hrun : expandAsset r st node = .ok st') :
    ∃ promoted,
      st'.nodes.map identityOf = (st.nodes ++ promoted).map identityOf ∧
      (isSelected st node = true → promoted = []) ∧
      (isSelected st node = false →
        ∃ selected, selectSources node.id st.undisplayed = .ok selected ∧
          promoted = toMoveOf selected) ∧
      (∀ e ∈ st'.undisplayed, ∀ n ∈ st'.nodes, equal n e.target = false) ∧
      (∀ e ∈ st'.undisplayed, ∀ m ∈ promoted, equal e.target m = false) := by
  unfold expandAsset at hrun
  by_cases hsel : isSelected st node = true
  · simp only [hsel, if_true, Except.ok.injEq] at hrun
    subst hrun
    exact ⟨[], by simp, fun _ => rfl, fun h => by simp [hsel] at h, hinv, by simp⟩
  · simp only [hsel, Bool.false_eq_true, if_false] at hrun
    cases hselected : selectSources node.id st.undisplayed with
    | error e => simp [hselected] at hrun
    | ok selected =>
      simp only [hselected] at hrun
      cases hcl : createLinks r
          { st with undisplayed := st.undisplayed.filter (fun conn =>
              (findNode (fun moving => equal conn.target moving) (toMoveOf selected)).isNone) }
          (resetConnections (st.nodes ++ toMoveOf selected)) with
      | error e => simp [hcl] at hrun
      | ok res =>
        obtain ⟨links, nodes', st1⟩ := res
        simp only [hcl, Except.ok.injEq] at hrun
        subst hrun
        have hreset : resetConnections nodes'
            = resetConnections (st.nodes ++ toMoveOf selected) := by
          rw [resetConnections_createLinks r _ _ links nodes' st1 hcl, resetConnections_idem]
        obtain ⟨added, hU, hadded⟩ := createLinks_adds_undisplayed_only r _ _ links nodes' st1 hcl
        have hkey : ∀ e ∈ st1.undisplayed,
            ∀ n ∈ st.nodes ++ toMoveOf selected, equal n e.target = false := by
          intro e he
          rw [hU] at he
          rcases List.mem_append.mp he with he | he
          · simp only [List.mem_filter, Option.isNone_iff_eq_none] at he
            obtain ⟨hmem, hnone⟩ := he
            have hmove := (findNode_eq_none_iff _ _).mp hnone
            intro n hn
            rcases List.mem_append.mp hn with hn | hn
            · exact hinv e hmem n hn
            · rw [equal_comm]; exact hmove n hn
          · have := hadded e he
            rw [findNode_resetConnections] at this
            exact (findNode_eq_none_iff _ _).mp this
        refine ⟨toMoveOf selected,
          map_identityOf_of_resetConnections _ _ hreset,
          fun h => absurd h hsel,
          fun _ => ⟨selected, rfl, rfl⟩, ?_, ?_⟩
        · intro e he
          have h1 := (findNode_eq_none_iff _ _).mpr (hkey e he)
          rw [← findNode_congr_reset e.target nodes' _ hreset] at h1
          exact (findNode_eq_none_iff _ _).mp h1
        · intro e he m hm
          rw [equal_comm]
          exact hkey e he m (List.mem_append_right _ hm)

/-- The preservation at `deepState`, the state after selecting application 1 (nodes 1
and 2, the frontier holds application 3 found from node `A-2`): expanding node `A-2`
displays application 3 and leaves the frontier entry for application 4. -/
theorem expandAsset_keeps_frontier_undrawn_witness :
    componentWillReceiveProps deepRepo GraphState.initial (some "Application") (some 1)
        = .ok deepState ∧
      (∀ e ∈ deepState.undisplayed, ∀ n ∈ deepState.nodes, equal n e.target = false) ∧
      expandAsset deepRepo deepState { tagNode 1 (app 2 []) with connections := some 1 }
        = .ok { selectedCategory := some "Application", selectedAssetKey := some 1,
                nodes :=
                  [addConnections (tagNode 0 (app 1 [])) 1,
                   addConnections (tagNode 1 (app 2 [])) 2,
                   addConnections (tagNode 0 (app 3 [])) 1],
                links :=
                  [{ source := some "A-1", target := some "A-2", value := 1 },
                   { source := some "A-2", target := some "A-3", value := 1 }],
                undisplayed := [{ source := .val (some "A-3"), target := app 4 [] }] } ∧
      ∃ promoted,
        ([addConnections (tagNode 0 (app 1 [])) 1, addConnections (tagNode 1 (app 2 [])) 2,
            addConnections (tagNode 0 (app 3 [])) 1] : List Asset).map identityOf
          = (deepState.nodes ++ promoted).map identityOf ∧
        (isSelected deepState { tagNode 1 (app 2 []) with connections := some 1 } = true →
          promoted = []) ∧
        (isSelected deepState { tagNode 1 (app 2 []) with connections := some 1 } = false →
          ∃ selected, selectSources
              ({ tagNode 1 (app 2 []) with connections := some 1 } : Asset).id
              deepState.undisplayed = .ok selected ∧
            promoted = toMoveOf selected) ∧
        (∀ e ∈ ([{ source := .val (some "A-3"), target := app 4 [] }] : List Entry),
          ∀ n ∈ [addConnections (tagNode 0 (app 1 [])) 1,
              addConnections (tagNode 1 (app 2 [])) 2, addConnections (tagNode 0 (app 3 [])) 1],
            equal n e.target = false) ∧
        (∀ e ∈ ([{ source := .val (some "A-3"), target := app 4 [] }] : List Entry),
          ∀ m ∈ promoted, equal e.target m = false) :=
  ⟨rfl, by decide, rfl,
    expandAsset_keeps_frontier_undrawn deepRepo deepState
      { tagNode 1 (app 2 []) with connections := some 1 } _ (by decide) rfl⟩

/-! ## The links of a node come from its own children -/


theorem findNode_map_idAt (p : Asset → Bool) (nodes : List Asset) :
    (findNode p nodes).map (fun k => idAt nodes k) = (nodes.find? p).map (fun d => d.id) := by
  induction nodes with
  | nil => rfl
  | cons node rest ih =>
    simp only [findNode, List.find?_cons]
    by_cases hp : p node = true
    · simp [hp, idAt]
    · simp only [Bool.not_eq_true] at hp
      simp only [hp, Bool.false_eq_true, if_false, Option.map_map, ← ih]
      congr 1

theorem stepResult_links_own (r : Repo) (nodes : List Asset) (index : Nat) (existing : Asset)
    (s : LoopState) (children implicit : List Asset)
    (hreset : resetConnections s.nodes = resetConnections nodes)
    (hfetch : r.getAssetChildrenById existing.assetType existing.categoryId
      = some { children := some children }) :
    (stepResult index existing s (some children) implicit).links
      = s.links ++ ownLinks r nodes existing := by
  have hreset' : resetConnections (stepResult index existing s (some children) implicit).nodes
      = resetConnections nodes := by
    rw [resetConnections_stepResult, hreset]
  rw [stepResult_links]
  congr 1
  have hG : (stepResult index existing s (some children) implicit).inGraph
      = inGraphOf nodes children := inGraphOf_congr_reset s.nodes nodes children hreset
  rw [hG]
  simp only [ownLinks, hfetch, inGraphOf, List.map_filterMap]
  congr 1
  funext c
  have h := findNode_map_idAt (fun d => equal d c) nodes
  have hid : (fun position =>
      ({ source := existing.id,
         target := idAt (stepResult index existing s (some children) implicit).nodes position,
         value := 1 } : Link))
      = (fun t => ({ source := existing.id, target := t, value := 1 } : Link))
        ∘ (fun k => idAt nodes k) := by
    funext position
    simp only [Function.comp, idAt_of_resetConnections _ _ hreset' position]
  rw [hid, ← Option.map_map, h, Option.map_map]
  rfl

theorem createLinksLoop_links_own (r : Repo) (nodes : List Asset) (pending : List Asset) :
    ∀ (index : Nat) (s s' : LoopState),
      resetConnections s.nodes = resetConnections nodes →
      (∀ n ∈ pending, isCategory n.assetType ∧ n.categoryId ≠ 0 ∧
        ∃ children, r.getAssetChildrenById n.assetType n.categoryId
          = some { children := some children }) →
      createLinksLoop r index pending s = .ok s' →
      s'.links = s.links ++ expectedLinks r nodes pending := by
  induction pending with
  | nil =>
    intro index s s' _ _ h
    simp only [createLinksLoop, Except.ok.injEq] at h
    subst h
    simp [expectedLinks]
  | cons existing rest ih =>
    intro index s s' hreset hgood h
    simp only [createLinksLoop] at h
    cases hstep : createLinksStep r index existing s with
    | error e => simp [hstep] at h
    | ok s1 =>
      simp only [hstep] at h
      obtain ⟨hcat, hid, children, hfetch⟩ := hgood existing (List.mem_cons_self _ _)
      have hreset1 := resetConnections_createLinksStep r index existing s s1 hstep
      rw [createLinksStep_eq, directOf_eq_fetchChildren r existing s.direct hcat hid] at hstep
      simp only [fetchChildren, hfetch] at hstep
      cases himp : getImplicitConnections r existing.categoryId existing.assetType with
      | error e => simp [himp] at hstep
      | ok implicit =>
        simp only [himp, Except.ok.injEq] at hstep
        have hlinks := stepResult_links_own r nodes index existing s children implicit hreset hfetch
        rw [hstep] at hlinks
        rw [ih (index + 1) s1 s' (hreset1.trans hreset)
          (fun n hn => hgood n (List.mem_cons_of_mem _ hn)) h, hlinks]
        simp [expectedLinks]

/-- When every node has one of the six categories, a non-zero id and a children
lookup that answers with a children list, the links createLinks returns are exactly
the links each node is to contribute, in iteration order. -/
theorem createLinks_links_eq_expected (r : Repo) (st : GraphState) (nodes : List Asset)
    (links : List Link) (nodes' : List Asset) (st' : GraphState)
    (hgood : ∀ n ∈ nodes, isCategory n.assetType ∧ n.categoryId ≠ 0 ∧
      ∃ children, r.getAssetChildrenById n.assetType n.categoryId
        = some { children := some children })
    (hrun : createLinks r st nodes = .ok (links, nodes', st')) :
    links = expectedLinks r nodes nodes := by
  unfold createLinks at hrun
  cases hloop : createLinksLoop r 0 nodes
      { direct := none, inGraph := [], cached := st.undisplayed, added := [], links := [],
        nodes := nodes } with
  | error e => simp [hloop] at hrun
  | ok s =>
    simp only [hloop, Except.ok.injEq, Prod.mk.injEq] at hrun
    rw [← hrun.1, createLinksLoop_links_own r nodes nodes 0 _ s rfl hgood hloop]
    rfl

/-- C13, failing input. The children lookup for node `A-2` returns a response without
a children list: createLinks still makes the link (A-2, A-2) for it, from the nodes
found for the children of node `A-1`, and counts it on node `A-2`. -/
theorem createLinks_reuses_previous_inGraph :
    staleRepo.getAssetChildrenById "Application" 2 = some { children := none } ∧
      createLinks staleRepo GraphState.initial (tagNodes [app 1 [], app 2 []])
        = .ok ([{ source := some "A-1", target := some "A-2", value := 1 },
                { source := some "A-2", target := some "A-2", value := 1 }],
               [addConnections (tagNode 0 (app 1 [])) 1, addConnections (tagNode 1 (app 2 [])) 3],
               GraphState.initial) :=
  ⟨rfl, rfl⟩

/-! ## Evaluations at concrete inputs -/

/-- C1, failing input. Nodes `A-1` and `A-2` are displayed and both have the
undisplayed application 3 as a direct child: the frontier createLinks leaves holds
two entries whose targets are equal, one per discovering node. -/
theorem createLinks_duplicates_frontier_target :
    createLinks sharedChildRepo GraphState.initial (tagNodes [app 1 [], app 2 []])
        = .ok ([], tagNodes [app 1 [], app 2 []],
            { GraphState.initial with
              undisplayed :=
                [{ source := .val (some "A-1"), target := app 3 [] },
                 { source := .val (some "A-2"), target := app 3 [] }] }) ∧
      equal (app 3 []) (app 3 []) = true :=
  ⟨rfl, rfl⟩

/-- C8, failing input. `substringState` is the state after selecting application 2,
and its only frontier entry was found from node `A-12`; expanding node `A-1`, whose
id is not the entry's source, promotes the entry's target all the same. -/
theorem expandAsset_promotes_on_substring :
    componentWillReceiveProps substringRepo GraphState.initial (some "Application") (some 2)
        = .ok substringState ∧
      substringState.undisplayed = [{ source := .val (some "A-12"), target := app 30 [] }] ∧
      (substringState.nodes.map (fun node => node.id)) = [some "A-2", some "A-1", some "A-12"] ∧
      (expandAsset substringRepo substringState { tagNode 1 (app 1 []) with connections := some 1 }).toOption.map
          (fun st => st.nodes.map (fun node => node.id))
        = some [some "A-2", some "A-1", some "A-12", some "A-30"] :=
  ⟨rfl, rfl, rfl, rfl⟩

/-- C9, failing input. `chainState` is the state after selecting application 1; its
frontier entry for application 3 is still the frontier after application 9 is
selected, although application 9 has no connection and the rebuild finds nothing. -/
theorem selection_change_keeps_frontier :
    componentWillReceiveProps chainRepo GraphState.initial (some "Application") (some 1)
        = .ok chainState ∧
      componentWillReceiveProps chainRepo chainState (some "Application") (some 9)
        = .ok { selectedCategory := some "Application", selectedAssetKey := some 9,
                nodes := tagNodes [app 9 []], links := [],
                undisplayed := [{ source := .val (some "A-2"), target := app 3 [] }] } ∧
      componentWillReceiveProps chainRepo GraphState.initial (some "Application") (some 9)
        = .ok { selectedCategory := some "Application", selectedAssetKey := some 9,
                nodes := tagNodes [app 9 []], links := [], undisplayed := [] } :=
  ⟨rfl, rfl, rfl⟩

/-- C14, failing input. `chainState` is the state after selecting application 1 of
`chainRepo`; its frontier holds application 3, found from node `A-2`. Selecting
application 2 next draws applications 2 and 3 and keeps that frontier entry: a
frontier entry targets application 3, which is drawn as node `A-3`. -/
theorem selection_change_leaves_drawn_target_in_frontier :
    componentWillReceiveProps chainRepo GraphState.initial (some "Application") (some 1)
        = .ok chainState ∧
      (∀ e ∈ chainState.undisplayed, ∀ n ∈ chainState.nodes, equal n e.target = false) ∧
      componentWillReceiveProps chainRepo chainState (some "Application") (some 2)
        = .ok { selectedCategory := some "Application", selectedAssetKey := some 2,
                nodes :=
                  [{ tagNode 0 (app 2 []) with connections := some 1 },
                   { tagNode 1 (app 3 []) with connections := some 1 }],
                links := [{ source := some "A-2", target := some "A-3", value := 1 }],
                undisplayed := [{ source := .val (some "A-2"), target := app 3 [] }] } ∧
      equal { tagNode 1 (app 3 []) with connections := some 1 }
        ({ source := .val (some "A-2"), target := app 3 [] } : Entry).target = true :=
  ⟨rfl, by decide, rfl, rfl⟩

/-- C12, counterexample. Application 6 of `doubleListRepo` lists application 5 twice,
so the implicit connections of application 5 hold that asset twice, as one object.
With the seed, the two children and the catalogue's application 6 on the heap, the
array initNodes hands to tagNodes is `[0, 1, 2, 3, 3]`: after tagNodes the nodes at
positions 3 and 4 both read `group` 5, so position 3 does not have `group` 4. -/
theorem tagNodesInPlace_shared_object_group :
    getImplicitConnections doubleListRepo 5 "Application"
        = .ok [app 6 [("Application", "5;5")], app 6 [("Application", "5;5")]] ∧
      readArray
          [app 5 [], app 6 [("Application", "5;5")], app 7 [], app 6 [("Application", "5;5")]]
          [0, 1, 2, 3, 3]
        = ([app 5 [], app 6 [("Application", "5;5")], app 7 [],
            app 6 [("Application", "5;5")], app 6 [("Application", "5;5")]] : List Asset).map
            some ∧
      (readArray
          (tagNodesInPlace
            [app 5 [], app 6 [("Application", "5;5")], app 7 [],
              app 6 [("Application", "5;5")]]
            [0, 1, 2, 3, 3])
          [0, 1, 2, 3, 3]).map (fun node => node.map (fun x => x.group))
        = [some (some 1), some (some 2), some (some 3), some (some 5), some (some 5)] :=
  ⟨rfl, rfl, rfl⟩

/-- C10, failing input. The children request for node `A-1` returns nothing:
createLinks raises a TypeError, and node `A-2` is never processed. -/
theorem createLinks_raises_on_absent_children :
    failingRepo.getAssetChildrenById "Application" 1 = none ∧
      createLinks failingRepo GraphState.initial (tagNodes [app 1 [], app 2 []])
        = .error .typeError :=
  ⟨rfl, rfl⟩

/-- C4, counterexample. Two calls of createLinks in succession on `[A, B, C]`, where
A has the direct children B and C: the links are the same, the counters are 2, 1, 1
after the first call and 4, 2, 2 after the second. -/
theorem createLinks_twice_accumulates_counters :
    ∃ links1 nodes1 st1 links2 nodes2 st2,
      createLinks fanRepo GraphState.initial fanNodes = .ok (links1, nodes1, st1) ∧
      createLinks fanRepo st1 nodes1 = .ok (links2, nodes2, st2) ∧
      links1 = links2 ∧
      nodes1.map (fun node => node.connections) = [some 2, some 1, some 1] ∧
      nodes2.map (fun node => node.connections) = [some 4, some 2, some 2] :=
  ⟨_, _, _, _, _, _, rfl, rfl, rfl, rfl, rfl⟩

end CIOBrain
